import Mathlib

/-!
# Verification of the VQF filter (`src/vqf_filter.c`, scalar non-AVX path)

A shallow embedding of the Vector Quotient Filter implementation:
the scalar (non-`VQF_USE_AVX`) and single-threaded (no `ENABLE_THREADS`)
compilation of `src/vqf_filter.c` with `TAG_BITS = 8`.

Machine integers are modelled as `Nat` with explicit `% 2^w` where overflow
can occur.  The two constant tables `one[]` and `low_order_pdep_table[]`
live in `vqf_precompute.h`, which is not part of the repository sources;
they are modelled from the specification (§4.A, §4.B) and marked as such.

Mutation of the block array is modelled by explicit state passing: each
filter operation takes a `VqfFilter` and returns the updated filter
together with its boolean result.
-/

namespace VQF

/-- Fuel-based population count of the low `fuel` bits. -/
def popcountA : Nat → Nat → Nat
  | 0, _ => 0
  | f + 1, v => v % 2 + popcountA f (v / 2)

/-- `__builtin_popcountll` on a 64-bit word (`word_rank` in the source). -/
def word_rank (v : Nat) : Nat := popcountA 64 (v % 2 ^ 64)

/-- Fuel-based count of trailing zeros; meaningful when a set bit exists
within `fuel` bits. -/
def tzcntA : Nat → Nat → Nat
  | 0, _ => 0
  | f + 1, v => if v % 2 = 1 then 0 else 1 + tzcntA f (v / 2)

/-- `_tzcnt_u64`: index of the lowest set bit, or 64 on a zero word. -/
def tzcnt (v : Nat) : Nat :=
  if v % 2 ^ 64 = 0 then 64 else tzcntA 64 (v % 2 ^ 64)

/-- Fuel-based bit deposit: distribute the low bits of `src` over the set
bit positions of `mask`, low positions first. -/
def pdepA : Nat → Nat → Nat → Nat
  | 0, _, _ => 0
  | f + 1, src, mask =>
      if mask % 2 = 1 then src % 2 + 2 * pdepA f (src / 2) (mask / 2)
      else 2 * pdepA f src (mask / 2)

/-- `_pdep_u64`. -/
def pdep (src mask : Nat) : Nat := pdepA 64 src (mask % 2 ^ 64)

/-- Fuel-based bit extract: gather the bits of `src` at the set bit
positions of `mask` into the low bits of the result. -/
def pextA : Nat → Nat → Nat → Nat
  | 0, _, _ => 0
  | f + 1, src, mask =>
      if mask % 2 = 1 then src % 2 + 2 * pextA f (src / 2) (mask / 2)
      else pextA f (src / 2) (mask / 2)

/-- `_pext_u64`. -/
def pext (src mask : Nat) : Nat := pextA 64 (src % 2 ^ 64) (mask % 2 ^ 64)

/-- Modelled from the spec: the `one[]` table of `vqf_precompute.h` (absent
from the sources).  `word_select` (§4.A) deposits `one[rank]` and counts
trailing zeros to find the position of the `rank`-th set bit, which forces
`one[rank] = 2^rank`. -/
def one (rank : Nat) : Nat := 2 ^ rank

/-- Modelled from the spec: the `low_order_pdep_table[]` of
`vqf_precompute.h` (absent from the sources).  §4.B describes `insert_md`
as inserting a zero at bit position `p` via a single `pdep`, and
`remove_md` as deleting that bit via the matching `pext`, which forces the
mask to be the all-ones word with bit `p` cleared.  An index past the
64-entry table is out of bounds in the source (undefined behaviour),
modelled as 0. -/
def low_order_pdep_table (i : Nat) : Nat :=
  if i < 64 then 2 ^ 64 - 1 - 2 ^ i else 0

/-- `lookup_64`: `_pdep_u64(one[rank], vector) >> rank << (sizeof(uint64_t)/2)`. -/
def lookup_64 (vector rank : Nat) : Nat :=
  pdep (one rank) vector / 2 ^ rank * 2 ^ 4 % 2 ^ 64

/-- `select_64`: `_tzcnt_u64(lookup_64(vector, rank))`. -/
def select_64 (vector rank : Nat) : Nat := tzcnt (lookup_64 vector rank)

/-- `update_md`: `*md = _pdep_u64(*md, low_order_pdep_table[index])`.
The `index` parameter is a `uint8_t` in the source, hence the `% 256`. -/
def update_md (md index : Nat) : Nat :=
  pdep md (low_order_pdep_table (index % 256))

/-- `remove_md`: `*md = _pext_u64(*md, low_order_pdep_table[index]) | (1ULL << 63)`. -/
def remove_md (md index : Nat) : Nat :=
  pext md (low_order_pdep_table (index % 256)) ||| 2 ^ 63

/-- `get_block_free_space`: `word_rank(vector)`. -/
def get_block_free_space (vector : Nat) : Nat := word_rank vector

/-- A `vqf_block`: one 64-bit metadata word and 28 16-bit tag cells. -/
structure VqfBlock where
  md : Nat
  tags : List Nat
  deriving Repr, DecidableEq

/-- Scalar `update_tags_512`: the `uint8_t` index is decremented by 4, then
`memmove` shifts `tags[index..26]` one cell up and the (16-bit) tag is
written at `tags[index]`.  An effective index ≥ 28 makes the source's
`memmove` write out of bounds (undefined behaviour), modelled as a no-op. -/
def update_tags_512 (b : VqfBlock) (index tag : Nat) : VqfBlock :=
  let i := (index % 256 + 252) % 256
  if i < 28 then
    { b with tags := b.tags.take i ++ tag % 2 ^ 16 :: (b.tags.drop i).take (27 - i) }
  else b

/-- Scalar `remove_tags_512`: the `uint8_t` index is decremented by 4, then
`memmove` shifts `tags[index+1..]` one cell down.  The source's `memmove`
count `(28 - index) * 2` reads one cell past the array, so the last cell
receives bytes from outside the block; that unspecified cell is modelled
as 0.  An effective index ≥ 28 is out of bounds (undefined behaviour),
modelled as a no-op. -/
def remove_tags_512 (b : VqfBlock) (index : Nat) : VqfBlock :=
  let i := (index % 256 + 252) % 256
  if i < 28 then
    { b with tags := b.tags.take i ++ b.tags.drop (i + 1) ++ [0] }
  else b

/-- The `vqf_metadata` header. -/
structure VqfMetadata where
  total_size_in_bytes : Nat
  key_remainder_bits : Nat
  range : Nat
  nblocks : Nat
  nelts : Nat
  nslots : Nat
  deriving Repr, DecidableEq

/-- The `vqf_filter`: metadata plus the flexible block array. -/
structure VqfFilter where
  metadata : VqfMetadata
  blocks : List VqfBlock
  deriving Repr, DecidableEq

/-- Read `filter->blocks[i]` (out-of-bounds reads are undefined in the
source; a junk block is returned). -/
def blockAt (f : VqfFilter) (i : Nat) : VqfBlock := f.blocks.getD i ⟨0, []⟩

/-- Write `filter->blocks[i]`. -/
def setBlock (f : VqfFilter) (i : Nat) (b : VqfBlock) : VqfFilter :=
  { f with blocks := f.blocks.set i b }

/-- `vqf_init`: `total_blocks = (nslots + 28) / 28` blocks, each with
metadata `UINT64_MAX & ~(1 << 63)`.  The tag cells are left uninitialized
by `malloc` in the source; the unspecified contents are modelled as 0. -/
def vqf_init (nslots : Nat) : VqfFilter :=
  let total_blocks := (nslots + 28) / 28
  { metadata :=
      { total_size_in_bytes := 64 * total_blocks
        key_remainder_bits := 8
        range := total_blocks * 36 * 2 ^ 8
        nblocks := total_blocks
        nelts := 0
        nslots := total_blocks * 28 }
    blocks := List.replicate total_blocks ⟨2 ^ 63 - 1, List.replicate 28 0⟩ }

/-- The scalar tag-comparison loop of `generate_match_mask`: bit `i` is set
iff `(block->tags[i] & TAG_MASK) == tag`, for `i < n`. -/
def matchBits (tags : List Nat) (tag : Nat) : Nat → Nat
  | 0 => 0
  | i + 1 =>
      (if tags.getD i 0 % 256 = tag then 2 ^ i else 0) + matchBits tags tag i

/-- Scalar `generate_match_mask`: tag-equality bits intersected with the
run mask `((end - start) >> 4)` derived from the metadata word. -/
def generate_match_mask (f : VqfFilter) (tag block_index : Nat) : Nat :=
  let index := block_index / 36
  let offset := block_index % 36
  let blk := blockAt f index
  let result := matchBits blk.tags tag 28
  let start := if offset ≠ 0 then lookup_64 blk.md (offset - 1) else one 0 * 2 ^ 4
  let endv := lookup_64 blk.md offset
  let mask := (endv + 2 ^ 64 - start) % 2 ^ 64 / 2 ^ 4
  mask &&& result

/-- `vqf_insert_val`: choose the primary bucket, or consult the alternate
block when the primary block's free space is below `QUQU_CHECK_ALT` and
the alternate lies in a different block; report `false` (filter full) only
on that path; otherwise shift in the 16-bit `tag | (val << 8)` cell and
insert a zero into the metadata word. -/
def vqf_insert_val (f : VqfFilter) (hash val : Nat) : VqfFilter × Bool :=
  let key_remainder_bits := f.metadata.key_remainder_bits
  let range := f.metadata.range
  let block_index := hash / 2 ^ key_remainder_bits
  let block_free := get_block_free_space (blockAt f (block_index / 36)).md
  let val_shifted := val % 256 * 2 ^ 8
  let tag := hash % 256
  let stored_tag := tag ||| val_shifted
  let alt_block_index := (hash ^^^ tag * 0x5bd1e995) % 2 ^ 64 % range / 2 ^ key_remainder_bits
  let decision : Option Nat :=
    if block_free < 43 ∧ block_index / 36 ≠ alt_block_index / 36 then
      let alt_block_free := get_block_free_space (blockAt f (alt_block_index / 36)).md
      if alt_block_free > block_free then some alt_block_index
      else if block_free = 36 then none
      else some block_index
    else some block_index
  match decision with
  | none => (f, false)
  | some chosen =>
      let index := chosen / 36
      let offset := chosen % 36
      let md := (blockAt f index).md
      let slot_index := select_64 md offset
      let select_index := (slot_index + offset + (2 ^ 64 - 4)) % 2 ^ 64
      let b1 := update_tags_512 (blockAt f index) slot_index stored_tag
      let b2 := { b1 with md := update_md b1.md select_index }
      (setBlock f index b2, true)

/-- `vqf_insert`: `vqf_insert_val` with `default_val = 0`. -/
def vqf_insert (f : VqfFilter) (hash : Nat) : VqfFilter × Bool :=
  vqf_insert_val f hash 0

/-- `remove_tags`: on a non-zero match mask, remove the tag at the lowest
set bit and update the metadata at `remove_index + offset - sizeof(uint64_t)`. -/
def remove_tags (f : VqfFilter) (tag block_index : Nat) : VqfFilter × Bool :=
  let index := block_index / 36
  let offset := block_index % 36
  let check_indexes := generate_match_mask f tag block_index
  if check_indexes ≠ 0 then
    let remove_index := tzcnt check_indexes
    let b1 := remove_tags_512 (blockAt f index) remove_index
    let remove_index2 := (remove_index + offset + (2 ^ 64 - 8)) % 2 ^ 64
    let b2 := { b1 with md := remove_md b1.md remove_index2 }
    (setBlock f index b2, true)
  else (f, false)

/-- `vqf_remove`: `remove_tags(primary) || remove_tags(alt)` with C
short-circuit evaluation. -/
def vqf_remove (f : VqfFilter) (hash : Nat) : VqfFilter × Bool :=
  let key_remainder_bits := f.metadata.key_remainder_bits
  let range := f.metadata.range
  let block_index := hash / 2 ^ key_remainder_bits
  let tag := hash % 256
  let alt_block_index := (hash ^^^ tag * 0x5bd1e995) % 2 ^ 64 % range / 2 ^ key_remainder_bits
  let r1 := remove_tags f tag block_index
  if r1.2 then (r1.1, true) else remove_tags r1.1 tag alt_block_index

/-- `check_tags`: the match mask is non-zero. -/
def check_tags (f : VqfFilter) (tag block_index : Nat) : Bool :=
  generate_match_mask f tag block_index != 0

/-- `vqf_is_present`: `check_tags(primary) || check_tags(alt)`. -/
def vqf_is_present (f : VqfFilter) (hash : Nat) : Bool :=
  let key_remainder_bits := f.metadata.key_remainder_bits
  let range := f.metadata.range
  let block_index := hash / 2 ^ key_remainder_bits
  let tag := hash % 256
  let alt_block_index := (hash ^^^ tag * 0x5bd1e995) % 2 ^ 64 % range / 2 ^ key_remainder_bits
  check_tags f tag block_index || check_tags f tag alt_block_index

/-- `retrieve_value`: `none` models returning `false` with `val` untouched;
otherwise the upper byte of the cell at the lowest set bit of the mask. -/
def retrieve_value (f : VqfFilter) (tag block_index : Nat) : Option Nat :=
  let mask := generate_match_mask f tag block_index
  let index := block_index / 36
  if mask = 0 then none
  else some ((blockAt f index).tags.getD (tzcnt mask) 0 / 2 ^ 8)

/-- `vqf_query`: try the primary bucket, then (only on failure) the alternate. -/
def vqf_query (f : VqfFilter) (hash : Nat) : Option Nat :=
  let key_remainder_bits := f.metadata.key_remainder_bits
  let range := f.metadata.range
  let block_index := hash / 2 ^ key_remainder_bits
  let tag := hash % 256
  let alt_block_index := (hash ^^^ tag * 0x5bd1e995) % 2 ^ 64 % range / 2 ^ key_remainder_bits
  match retrieve_value f tag block_index with
  | some v => some v
  | none => retrieve_value f tag alt_block_index

/-- The `while (mask > 0)` loop of `retrieve_values`: push the upper byte
of each cell whose mask bit is set, in increasing slot order. -/
def pushLoopA : Nat → Nat → Nat → List Nat → List Nat → List Nat
  | 0, _, _, _, acc => acc
  | fuel + 1, mask, i, tags, acc =>
      if mask = 0 then acc
      else
        pushLoopA fuel (mask / 2) (i + 1) tags
          (if mask % 2 = 1 then acc ++ [tags.getD i 0 / 2 ^ 8] else acc)

/-- `retrieve_values`: push the upper byte of every matched cell of this
bucket into `values`; report whether the mask was non-zero. -/
def retrieve_values (f : VqfFilter) (tag block_index : Nat) (values : List Nat) :
    List Nat × Bool :=
  let mask := generate_match_mask f tag block_index
  let index := block_index / 36
  if mask = 0 then (values, false)
  else (pushLoopA 64 mask 0 (blockAt f index).tags values, true)

/-- `vqf_query_iter`: `retrieve_values(primary) || retrieve_values(alt)`
with C short-circuit evaluation. -/
def vqf_query_iter (f : VqfFilter) (hash : Nat) (values : List Nat) :
    List Nat × Bool :=
  let key_remainder_bits := f.metadata.key_remainder_bits
  let range := f.metadata.range
  let block_index := hash / 2 ^ key_remainder_bits
  let tag := hash % 256
  let alt_block_index := (hash ^^^ tag * 0x5bd1e995) % 2 ^ 64 % range / 2 ^ key_remainder_bits
  let r1 := retrieve_values f tag block_index values
  if r1.2 then (r1.1, true) else retrieve_values f tag alt_block_index r1.1

/-- Fold a list of hashes through `vqf_insert`, conjoining the returned
booleans. -/
def insertAll (f : VqfFilter) (hs : List Nat) : VqfFilter × Bool :=
  hs.foldl (fun acc h => let r := vqf_insert acc.1 h; (r.1, acc.2 && r.2)) (f, true)

/-! ## Specification-side notions

The unary metadata encoding (spec §3.2): the `k`-th set bit of `md` marks
the end of bucket `k`'s run.  These notions are defined independently of
the `pdep`-based code path and are connected to it by the lemmas below. -/

/-- Fuel-based position of the `k`-th set bit (0-based); at least `fuel`
when there are fewer than `k + 1` set bits in the low `fuel` bits. -/
def selPosA : Nat → Nat → Nat → Nat
  | 0, _, _ => 0
  | f + 1, md, k =>
      if md % 2 = 1 then
        if k = 0 then 0 else 1 + selPosA f (md / 2) (k - 1)
      else 1 + selPosA f (md / 2) k

/-- Position of the `k`-th set bit of a 64-bit metadata word
(`end_of_run(k)` in spec §3.2). -/
def selPos (md k : Nat) : Nat := selPosA 64 md k

/-- First slot of bucket `o`'s run (spec §3.2: `end_of_run(o-1) + 1 - o`). -/
def runStart (md o : Nat) : Nat := if o = 0 then 0 else selPos md (o - 1) + 1 - o

/-- One past the last slot of bucket `o`'s run (spec §3.2:
`slot_index(o) = end_of_run(o) - o`). -/
def runEnd (md o : Nat) : Nat := selPos md o - o

/-- Slot `j` lies in bucket `o`'s run. -/
def inRun (md o j : Nat) : Prop := runStart md o ≤ j ∧ j < runEnd md o

instance (md o j : Nat) : Decidable (inRun md o j) := by
  unfold inRun; infer_instance

/-- Structural well-formedness of a block: a 64-bit metadata word holding
at least `BUCKETS_PER_BLOCK = 36` set bits (hence at most 28 zeros, one
per occupied slot), and exactly 28 tag cells each below `2^16`. -/
def blockWF (b : VqfBlock) : Prop :=
  b.md < 2 ^ 64 ∧ 36 ≤ word_rank b.md ∧ b.tags.length = 28 ∧ ∀ t ∈ b.tags, t < 2 ^ 16

instance (b : VqfBlock) : Decidable (blockWF b) := by
  unfold blockWF; infer_instance

/-- Structural well-formedness of a filter: consistent metadata and
well-formed blocks. -/
def filterWF (f : VqfFilter) : Prop :=
  f.metadata.key_remainder_bits = 8 ∧
  f.metadata.range = f.metadata.nblocks * 36 * 2 ^ 8 ∧
  f.blocks.length = f.metadata.nblocks ∧
  0 < f.metadata.nblocks ∧
  ∀ b ∈ f.blocks, blockWF b

instance (f : VqfFilter) : Decidable (filterWF f) := by
  unfold filterWF; infer_instance

/-- The primary bucket index of a hash (spec §4.C). -/
def primaryIndex (f : VqfFilter) (hash : Nat) : Nat :=
  hash / 2 ^ f.metadata.key_remainder_bits

/-- The alternate bucket index of a hash (spec §4.C). -/
def altIndex (f : VqfFilter) (hash : Nat) : Nat :=
  (hash ^^^ hash % 256 * 0x5bd1e995) % 2 ^ 64 % f.metadata.range /
    2 ^ f.metadata.key_remainder_bits

/-- The bucket `vqf_insert_val` inserts into, mirroring its branch
structure; `none` on the filter-full path. -/
def chosenBI (f : VqfFilter) (hash : Nat) : Option Nat :=
  let block_index := primaryIndex f hash
  let block_free := get_block_free_space (blockAt f (block_index / 36)).md
  let alt_block_index := altIndex f hash
  if block_free < 43 ∧ block_index / 36 ≠ alt_block_index / 36 then
    let alt_block_free := get_block_free_space (blockAt f (alt_block_index / 36)).md
    if alt_block_free > block_free then some alt_block_index
    else if block_free = 36 then none
    else some block_index
  else some block_index

/-- The slot at which an insert into bucket `bi` of filter `f` lands: the
end of that bucket's run. -/
def insertSlot (f : VqfFilter) (bi : Nat) : Nat :=
  runEnd (blockAt f (bi / 36)).md (bi % 36)

/-- The values (upper bytes) of the cells of bucket `bi`'s run whose low
byte equals `tag`, in increasing slot order. -/
def bucketMatchVals (f : VqfFilter) (bi tag : Nat) : List Nat :=
  let blk := blockAt f (bi / 36)
  ((List.range 28).filter fun j =>
      decide (inRun blk.md (bi % 36) j) && decide (blk.tags.getD j 0 % 256 = tag)).map
    fun j => blk.tags.getD j 0 / 2 ^ 8

/-! ## Concrete traces

Small insertion traces over `vqf_init 64` (3 blocks, range 27648) used to
exercise corner cases.  Every hash below has both candidate buckets inside
block 0 unless noted otherwise. -/

/-- Twenty-eight filler hashes at bucket offsets 1..28 of block 0 with
pairwise distinct tags, followed by hash 38 (bucket offset 0), whose
primary and alternate buckets both lie in block 0. -/
def traceA2 : List Nat :=
  [256, 515, 774, 1031, 1290, 1549, 1806, 2065, 2324, 2581, 2840, 3100,
   3359, 3616, 3875, 4098, 4356, 4617, 4875, 5138, 5401, 5674, 5937, 6160,
   6423, 6686, 6964, 7215, 38]

/-- The filter after the 28 filler inserts of `traceA2`: block 0 holds 28
tags and its metadata popcount is 36 (the code's "block full" test). -/
def filterA28 : VqfFilter := (insertAll (vqf_init 64) (traceA2.take 28)).1

/-- Twenty-one filler hashes at bucket offsets 1..21 of block 0, tags all
different from 1. -/
def fillB : List Nat :=
  [256, 514, 771, 1028, 1285, 1542, 1799, 2056, 2313, 2570, 2827, 3084,
   3341, 3598, 3855, 4112, 4369, 4626, 4883, 5140, 5397]

/-- Hash 1 (payload 7) into its primary bucket, the 21 fillers of `fillB`
to push block 0's free space below `QUQU_CHECK_ALT = 43`, then hash 1
again with payload 9, which the two-choice rule now sends to its alternate
bucket 77 in block 2. -/
def filterB : VqfFilter :=
  (vqf_insert_val (insertAll (vqf_insert_val (vqf_init 64) 1 7).1 fillB).1 1 9).1

/-- Four fillers in buckets 0..3 (tags 100..103, slots 0..3), then hash
3272 (bucket 12, tag 200) with payload 5, stored as cell 1480 in slot 4. -/
def filterC : VqfFilter :=
  (vqf_insert_val (insertAll (vqf_init 64) [100, 357, 614, 871]).1 3272 5).1

/-! ## Arithmetic helpers -/

theorem two_pow_succ_eq (n : Nat) : 2 ^ (n + 1) = 2 * 2 ^ n := by
  rw [pow_succ]; ring

theorem mod_two_pow_succ (x n : Nat) :
    x % 2 ^ (n + 1) = x % 2 + 2 * (x / 2 % 2 ^ n) := by
  rw [two_pow_succ_eq, Nat.mod_mul]

theorem div_two_pow_succ (x n : Nat) : x / 2 ^ (n + 1) = x / 2 / 2 ^ n := by
  rw [two_pow_succ_eq, Nat.div_div_eq_div_mul, Nat.mul_comm]

/-! ## Population count -/

theorem popcountA_zero (f : Nat) : popcountA f 0 = 0 := by
  induction f with
  | zero => rfl
  | succ f ih => simp [popcountA, ih]

theorem popcountA_le (f v : Nat) : popcountA f v ≤ f := by
  induction f generalizing v with
  | zero => simp [popcountA]
  | succ f ih =>
      simp only [popcountA]
      have := ih (v / 2)
      have : v % 2 ≤ 1 := Nat.le_of_lt_succ (Nat.mod_lt _ (by omega))
      omega

theorem popcountA_fuel (f t v : Nat) (hv : v < 2 ^ t) (ht : t ≤ f) :
    popcountA f v = popcountA t v := by
  induction t generalizing f v with
  | zero =>
      interval_cases v
      · rw [popcountA_zero, popcountA_zero]
  | succ t ih =>
      match f, ht with
      | f + 1, ht =>
          simp only [popcountA]
          have h2 : v / 2 < 2 ^ t := by
            rw [two_pow_succ_eq] at hv; omega
          rw [ih f (v / 2) h2 (by omega)]

theorem popcountA_split (a b v : Nat) :
    popcountA (a + b) v = popcountA a (v % 2 ^ a) + popcountA b (v / 2 ^ a) := by
  induction a generalizing v with
  | zero => simp [popcountA, Nat.mod_one]
  | succ a ih =>
      have hadd : a + 1 + b = (a + b) + 1 := by omega
      rw [hadd]
      simp only [popcountA]
      rw [ih (v / 2), mod_two_pow_succ, div_two_pow_succ]
      have hm : (v % 2 + 2 * (v / 2 % 2 ^ a)) % 2 = v % 2 := by omega
      have hd : (v % 2 + 2 * (v / 2 % 2 ^ a)) / 2 = v / 2 % 2 ^ a := by omega
      rw [hm, hd]
      omega

/-! ## Select (position of the k-th set bit) -/

theorem selPosA_odd_zero (f md : Nat) (h : md % 2 = 1) :
    selPosA (f + 1) md 0 = 0 := by
  simp [selPosA, h]

theorem selPosA_odd_succ (f md k : Nat) (h : md % 2 = 1) :
    selPosA (f + 1) md (k + 1) = selPosA f (md / 2) k + 1 := by
  simp [selPosA, h, Nat.add_comm]

theorem selPosA_even (f md k : Nat) (h : md % 2 = 0) :
    selPosA (f + 1) md k = selPosA f (md / 2) k + 1 := by
  have h1 : md % 2 ≠ 1 := by omega
  simp [selPosA, h1, Nat.add_comm]

theorem selPosA_le (f md k : Nat) : selPosA f md k ≤ f := by
  induction f generalizing md k with
  | zero => simp [selPosA]
  | succ f ih =>
      rcases Nat.mod_two_eq_zero_or_one md with h | h
      · rw [selPosA_even f md k h]
        have := ih (md / 2) k; omega
      · match k with
        | 0 => rw [selPosA_odd_zero f md h]; omega
        | k + 1 =>
            rw [selPosA_odd_succ f md k h]
            have := ih (md / 2) k; omega

theorem selPosA_ge (f md k : Nat) (h : k < popcountA f md) :
    k ≤ selPosA f md k := by
  induction f generalizing md k with
  | zero => simp [popcountA] at h
  | succ f ih =>
      simp only [popcountA] at h
      rcases Nat.mod_two_eq_zero_or_one md with h1 | h1
      · rw [selPosA_even f md k h1]
        have := ih (md / 2) k (by omega); omega
      · match k with
        | 0 => omega
        | k + 1 =>
            rw [selPosA_odd_succ f md k h1]
            have := ih (md / 2) k (by omega); omega

theorem selPosA_lt_iff (f md k : Nat) :
    selPosA f md k < f ↔ k < popcountA f md := by
  induction f generalizing md k with
  | zero => simp [selPosA, popcountA]
  | succ f ih =>
      simp only [popcountA]
      rcases Nat.mod_two_eq_zero_or_one md with h1 | h1
      · rw [selPosA_even f md k h1]
        have := ih (md / 2) k; omega
      · match k with
        | 0 =>
            rw [selPosA_odd_zero f md h1]
            omega
        | k + 1 =>
            rw [selPosA_odd_succ f md k h1]
            have := ih (md / 2) k; omega

theorem selPosA_succ_lt (f md k : Nat) (h : k + 1 < popcountA f md) :
    selPosA f md k < selPosA f md (k + 1) := by
  induction f generalizing md k with
  | zero => simp [popcountA] at h
  | succ f ih =>
      simp only [popcountA] at h
      rcases Nat.mod_two_eq_zero_or_one md with h1 | h1
      · rw [selPosA_even f md k h1, selPosA_even f md (k + 1) h1]
        have := ih (md / 2) k (by omega); omega
      · match k with
        | 0 =>
            rw [selPosA_odd_zero f md h1, selPosA_odd_succ f md 0 h1]
            omega
        | k + 1 =>
            rw [selPosA_odd_succ f md k h1, selPosA_odd_succ f md (k + 1) h1]
            have := ih (md / 2) k (by omega); omega

theorem selPosA_pc_below (f md k : Nat) (h : k < popcountA f md) :
    popcountA f (md % 2 ^ selPosA f md k) = k := by
  induction f generalizing md k with
  | zero => simp [popcountA] at h
  | succ f ih =>
      simp only [popcountA] at h
      rcases Nat.mod_two_eq_zero_or_one md with h1 | h1
      · rw [selPosA_even f md k h1, mod_two_pow_succ]
        simp only [popcountA]
        have hm : (md % 2 + 2 * (md / 2 % 2 ^ selPosA f (md / 2) k)) % 2 = 0 := by
          omega
        have hd : (md % 2 + 2 * (md / 2 % 2 ^ selPosA f (md / 2) k)) / 2 =
            md / 2 % 2 ^ selPosA f (md / 2) k := by omega
        rw [hm, hd, ih (md / 2) k (by omega)]
        omega
      · match k with
        | 0 =>
            rw [selPosA_odd_zero f md h1]
            simp [Nat.mod_one, popcountA_zero]
        | k + 1 =>
            rw [selPosA_odd_succ f md k h1, mod_two_pow_succ]
            simp only [popcountA]
            have hm : (md % 2 + 2 * (md / 2 % 2 ^ selPosA f (md / 2) k)) % 2 = 1 := by
              omega
            have hd : (md % 2 + 2 * (md / 2 % 2 ^ selPosA f (md / 2) k)) / 2 =
                md / 2 % 2 ^ selPosA f (md / 2) k := by omega
            rw [hm, hd, ih (md / 2) k (by omega)]
            omega

theorem selPosA_bit (f md k : Nat) (h : k < popcountA f md) :
    md / 2 ^ selPosA f md k % 2 = 1 := by
  induction f generalizing md k with
  | zero => simp [popcountA] at h
  | succ f ih =>
      simp only [popcountA] at h
      rcases Nat.mod_two_eq_zero_or_one md with h1 | h1
      · rw [selPosA_even f md k h1, div_two_pow_succ]
        exact ih (md / 2) k (by omega)
      · match k with
        | 0 =>
            rw [selPosA_odd_zero f md h1]
            simpa using h1
        | k + 1 =>
            rw [selPosA_odd_succ f md k h1, div_two_pow_succ]
            exact ih (md / 2) k (by omega)

theorem selPosA_low (f : Nat) : ∀ q x y k, x % 2 ^ q = y % 2 ^ q →
    selPosA f x k < q → selPosA f y k = selPosA f x k := by
  induction f with
  | zero => intro q x y k _ _; simp [selPosA]
  | succ f ih =>
      intro q x y k hxy hlt
      match q with
      | 0 => omega
      | q + 1 =>
          have hx := mod_two_pow_succ x q
          have hy := mod_two_pow_succ y q
          have hxm : x % 2 ^ (q + 1) % 2 = x % 2 := by omega
          have hym : y % 2 ^ (q + 1) % 2 = y % 2 := by omega
          have hbit : x % 2 = y % 2 := by
            have h1 : x % 2 ^ (q + 1) % 2 = y % 2 ^ (q + 1) % 2 := by rw [hxy]
            omega
          have htail : x / 2 % 2 ^ q = y / 2 % 2 ^ q := by omega
          rcases Nat.mod_two_eq_zero_or_one x with h1 | h1
          · rw [selPosA_even f x k h1] at hlt ⊢
            rw [selPosA_even f y k (by omega)]
            rw [ih q (x / 2) (y / 2) k htail (by omega)]
          · match k with
            | 0 =>
                rw [selPosA_odd_zero f x h1] at hlt ⊢
                rw [selPosA_odd_zero f y (by omega)]
            | k + 1 =>
                rw [selPosA_odd_succ f x k h1] at hlt ⊢
                rw [selPosA_odd_succ f y k (by omega)]
                rw [ih q (x / 2) (y / 2) k htail (by omega)]

theorem selPosA_zb (f md k : Nat) (h : k < popcountA f md) :
    popcountA f md + selPosA f md k ≤ f + k := by
  induction f generalizing md k with
  | zero => simp [popcountA] at h
  | succ f ih =>
      simp only [popcountA] at h ⊢
      rcases Nat.mod_two_eq_zero_or_one md with h1 | h1
      · rw [selPosA_even f md k h1]
        have := ih (md / 2) k (by omega); omega
      · match k with
        | 0 =>
            rw [selPosA_odd_zero f md h1]
            have := popcountA_le f (md / 2); omega
        | k + 1 =>
            rw [selPosA_odd_succ f md k h1]
            have := ih (md / 2) k (by omega); omega

theorem selPosA_at (t : Nat) : ∀ f x k, t < f → popcountA t (x % 2 ^ t) = k →
    x / 2 ^ t % 2 = 1 → selPosA f x k = t := by
  induction t with
  | zero =>
      intro f x k hf hpc hbit
      match f, hf with
      | 0, hf => exact absurd hf (by omega)
      | f + 1, _ =>
          simp only [pow_zero, Nat.mod_one, popcountA_zero] at hpc
          simp only [pow_zero, Nat.div_one] at hbit
          rw [← hpc, selPosA_odd_zero f x hbit]
  | succ t ih =>
      intro f x k hf hpc hbit
      match f, hf with
      | 0, hf => exact absurd hf (by omega)
      | f + 1, hf =>
          have hms := mod_two_pow_succ x t
          have hsplit : x % 2 ^ (t + 1) % 2 = x % 2 := by omega
          have hdiv : x % 2 ^ (t + 1) / 2 = x / 2 % 2 ^ t := by omega
          have hbit' : x / 2 / 2 ^ t % 2 = 1 := by
            rwa [div_two_pow_succ] at hbit
          simp only [popcountA, hsplit, hdiv] at hpc
          rcases Nat.mod_two_eq_zero_or_one x with h1 | h1
          · rw [selPosA_even f x k h1]
            rw [ih f (x / 2) k (by omega) (by omega) hbit']
          · match k, hpc with
            | 0, hpc => omega
            | k + 1, hpc =>
                rw [selPosA_odd_succ f x k h1]
                rw [ih f (x / 2) k (by omega) (by omega) hbit']

/-! ## Bit deposit / extract / trailing zeros -/

theorem pdepA_src_zero (f : Nat) : ∀ mask, pdepA f 0 mask = 0 := by
  induction f with
  | zero => intro mask; rfl
  | succ f ih =>
      intro mask
      simp only [pdepA, Nat.zero_mod, Nat.zero_div, ih]
      split <;> rfl

theorem pdepA_lt (f : Nat) : ∀ src mask, pdepA f src mask < 2 ^ f := by
  induction f with
  | zero => intro src mask; simp [pdepA]
  | succ f ih =>
      intro src mask
      simp only [pdepA, two_pow_succ_eq]
      split
      · have h1 := ih (src / 2) (mask / 2)
        have h2 : src % 2 ≤ 1 := by omega
        omega
      · have := ih src (mask / 2)
        omega

theorem pextA_lt (f : Nat) : ∀ src mask, pextA f src mask < 2 ^ f := by
  induction f with
  | zero => intro src mask; simp [pextA]
  | succ f ih =>
      intro src mask
      simp only [pextA, two_pow_succ_eq]
      split
      · have h1 := ih (src / 2) (mask / 2)
        have h2 : src % 2 ≤ 1 := by omega
        omega
      · have h1 := ih (src / 2) (mask / 2)
        have h2 : (1:Nat) ≤ 2 ^ f := Nat.one_le_two_pow
        omega

theorem pdepA_one (f : Nat) : ∀ md k, pdepA f (2 ^ k) md =
    if k < popcountA f md then 2 ^ selPosA f md k else 0 := by
  induction f with
  | zero => intro md k; simp [pdepA, popcountA]
  | succ f ih =>
      intro md k
      simp only [popcountA]
      rcases Nat.mod_two_eq_zero_or_one md with h1 | h1
      · have hne : ¬ (md % 2 = 1) := by omega
        simp only [pdepA]
        rw [if_neg hne, ih, selPosA_even f md k h1]
        simp only [h1, Nat.zero_add]
        by_cases hk : k < popcountA f (md / 2)
        · simp only [hk, if_true, pow_succ]; ring
        · simp [hk]
      · simp only [pdepA, h1, if_true]
        match k with
        | 0 =>
            have e1 : (2:Nat) ^ 0 % 2 = 1 := by norm_num
            have e2 : (2:Nat) ^ 0 / 2 = 0 := by norm_num
            rw [e1, e2, pdepA_src_zero, selPosA_odd_zero f md h1]
            have : 0 < 1 + popcountA f (md / 2) := by omega
            simp [this]
        | k + 1 =>
            have e1 : (2:Nat) ^ (k + 1) % 2 = 0 := by
              rw [two_pow_succ_eq]; omega
            have e2 : (2:Nat) ^ (k + 1) / 2 = 2 ^ k := by
              rw [two_pow_succ_eq]; omega
            rw [e1, e2, ih, selPosA_odd_succ f md k h1]
            by_cases hk : k < popcountA f (md / 2)
            · have hk2 : k + 1 < 1 + popcountA f (md / 2) := by omega
              simp only [hk, if_true, hk2, if_true]
              rw [pow_succ]; ring
            · have hk2 : ¬ (k + 1 < 1 + popcountA f (md / 2)) := by omega
              simp [hk, hk2]

theorem pdepA_allmask (f : Nat) : ∀ src, pdepA f src (2 ^ f - 1) = src % 2 ^ f := by
  induction f with
  | zero => intro src; simp [pdepA, Nat.mod_one]
  | succ f ih =>
      intro src
      have hp : (1:Nat) ≤ 2 ^ f := Nat.one_le_two_pow
      have e1 : (2 ^ (f + 1) - 1) % 2 = 1 := by
        rw [two_pow_succ_eq]; omega
      have e2 : (2 ^ (f + 1) - 1) / 2 = 2 ^ f - 1 := by
        rw [two_pow_succ_eq]; omega
      simp only [pdepA, e1, if_true, e2, ih]
      rw [mod_two_pow_succ]

theorem pdepA_insmask (f : Nat) : ∀ p src, p < f →
    pdepA f src (2 ^ f - 1 - 2 ^ p) =
      src % 2 ^ p + 2 ^ (p + 1) * (src / 2 ^ p % 2 ^ (f - 1 - p)) := by
  induction f with
  | zero => intro p src h; omega
  | succ f ih =>
      intro p src hp
      have hf1 : (1:Nat) ≤ 2 ^ f := Nat.one_le_two_pow
      match p with
      | 0 =>
          have e1 : (2 ^ (f + 1) - 1 - 2 ^ 0) % 2 = 0 := by
            rw [two_pow_succ_eq]; norm_num; omega
          have hne : (2 ^ (f + 1) - 1 - 2 ^ 0) % 2 ≠ 1 := by omega
          have e2 : (2 ^ (f + 1) - 1 - 2 ^ 0) / 2 = 2 ^ f - 1 := by
            rw [two_pow_succ_eq]; norm_num; omega
          simp only [pdepA]
          rw [if_neg hne, e2, pdepA_allmask]
          have e3 : f + 1 - 1 - 0 = f := by omega
          rw [e3]
          simp [Nat.mod_one, Nat.div_one, pow_one, pow_zero]
      | q + 1 =>
          have hq : q < f := by omega
          have hq1 : (1:Nat) + 2 ^ q ≤ 2 ^ f := by
            have : (2:Nat) ^ (q + 1) ≤ 2 ^ f := Nat.pow_le_pow_right (by omega) (by omega)
            rw [two_pow_succ_eq] at this
            omega
          have e1 : (2 ^ (f + 1) - 1 - 2 ^ (q + 1)) % 2 = 1 := by
            rw [two_pow_succ_eq, two_pow_succ_eq]; omega
          have e2 : (2 ^ (f + 1) - 1 - 2 ^ (q + 1)) / 2 = 2 ^ f - 1 - 2 ^ q := by
            rw [two_pow_succ_eq, two_pow_succ_eq]; omega
          simp only [pdepA]
          rw [if_pos e1, e2, ih q (src / 2) hq]
          have e3 : f + 1 - 1 - (q + 1) = f - 1 - q := by omega
          rw [e3, ← div_two_pow_succ]
          have e5 : 2 ^ (q + 1 + 1) * (src / 2 ^ (q + 1) % 2 ^ (f - 1 - q)) =
              2 * (2 ^ (q + 1) * (src / 2 ^ (q + 1) % 2 ^ (f - 1 - q))) := by
            rw [two_pow_succ_eq (q + 1)]; ring
          rw [e5, mod_two_pow_succ src q]
          have e6 : src / 2 ^ (q + 1) = src / 2 / 2 ^ q := div_two_pow_succ src q
          rw [e6]
          omega

theorem tzcntA_pow (e : Nat) : ∀ f, e < f → tzcntA f (2 ^ e) = e := by
  induction e with
  | zero =>
      intro f hf
      match f, hf with
      | f + 1, _ => simp [tzcntA]
  | succ e ih =>
      intro f hf
      match f, hf with
      | f + 1, hf =>
          have e1 : (2:Nat) ^ (e + 1) % 2 = 0 := by rw [two_pow_succ_eq]; omega
          have hne : (2:Nat) ^ (e + 1) % 2 ≠ 1 := by omega
          have e2 : (2:Nat) ^ (e + 1) / 2 = 2 ^ e := by rw [two_pow_succ_eq]; omega
          simp only [tzcntA, hne, if_false, e2, ih f (by omega)]
          omega

theorem tzcnt_pow (e : Nat) (h : e < 64) : tzcnt (2 ^ e) = e := by
  have h1 : (2:Nat) ^ e < 2 ^ 64 := Nat.pow_lt_pow_right (by omega) h
  have h2 : (2:Nat) ^ e % 2 ^ 64 = 2 ^ e := Nat.mod_eq_of_lt h1
  have h3 : (2:Nat) ^ e ≠ 0 := Nat.pos_iff_ne_zero.mp (Nat.pos_pow_of_pos e (by omega))
  unfold tzcnt
  rw [h2]
  simp only [h3, if_false]
  exact tzcntA_pow e 64 h

/-! ## Derived facts about the code-level primitives -/

theorem word_rank_eq (md : Nat) (h : md < 2 ^ 64) :
    word_rank md = popcountA 64 md := by
  unfold word_rank
  rw [Nat.mod_eq_of_lt h]

theorem pdep_one_eq (md k : Nat) (hmd : md < 2 ^ 64) (hk : k < popcountA 64 md) :
    pdep (one k) md = 2 ^ selPosA 64 md k := by
  unfold pdep one
  rw [Nat.mod_eq_of_lt hmd, pdepA_one, if_pos hk]

theorem lookup_64_eq (md k : Nat) (hmd : md < 2 ^ 64)
    (hk : k < popcountA 64 md) (hzb : selPosA 64 md k - k ≤ 59) :
    lookup_64 md k = 2 ^ (selPosA 64 md k - k + 4) := by
  unfold lookup_64
  rw [pdep_one_eq md k hmd hk]
  have hge : k ≤ selPosA 64 md k := selPosA_ge 64 md k hk
  have hdiv : (2:Nat) ^ selPosA 64 md k / 2 ^ k = 2 ^ (selPosA 64 md k - k) :=
    Nat.pow_div hge (by omega)
  rw [hdiv, ← pow_add]
  exact Nat.mod_eq_of_lt (Nat.pow_lt_pow_right (by omega) (by omega))

theorem select_64_eq (md k : Nat) (hmd : md < 2 ^ 64)
    (hk : k < popcountA 64 md) (hzb : selPosA 64 md k - k ≤ 59) :
    select_64 md k = selPosA 64 md k - k + 4 := by
  unfold select_64
  rw [lookup_64_eq md k hmd hk hzb]
  exact tzcnt_pow _ (by omega)

theorem update_md_eq (md p : Nat) (hp : p ≤ 62) :
    update_md md p = md % 2 ^ p + 2 ^ (p + 1) * (md / 2 ^ p % 2 ^ (63 - p)) := by
  unfold update_md low_order_pdep_table pdep
  have h1 : p % 256 = p := Nat.mod_eq_of_lt (by omega)
  have h2 : p % 256 < 64 := by omega
  rw [if_pos h2, h1]
  have h3 : (2:Nat) ^ 64 - 1 - 2 ^ p < 2 ^ 64 := by
    have h0 : (1:Nat) ≤ 2 ^ 64 := Nat.one_le_two_pow
    have h0p : (1:Nat) ≤ 2 ^ p := Nat.one_le_two_pow
    omega
  rw [Nat.mod_eq_of_lt h3]
  have h4 := pdepA_insmask 64 p md (by omega)
  rw [h4]

/-! ## testBit helpers -/

theorem testBit_mul_pow (s x j : Nat) :
    (2 ^ s * x).testBit j = if s ≤ j then x.testBit (j - s) else false := by
  by_cases hsj : s ≤ j
  · rw [if_pos hsj, Nat.testBit_to_div_mod, Nat.testBit_to_div_mod]
    have he : (2:Nat) ^ j = 2 ^ s * 2 ^ (j - s) := by
      rw [← pow_add]
      congr 1
      omega
    rw [he, ← Nat.div_div_eq_div_mul,
      Nat.mul_div_cancel_left x (Nat.pos_pow_of_pos s (by omega))]
  · rw [if_neg hsj, Nat.testBit_to_div_mod]
    have he : (2:Nat) ^ s = 2 ^ j * 2 ^ (s - j) := by
      rw [← pow_add]
      congr 1
      omega
    have hd : 2 ^ s * x / 2 ^ j = 2 ^ (s - j) * x := by
      rw [he, Nat.mul_assoc,
        Nat.mul_div_cancel_left _ (Nat.pos_pow_of_pos j (by omega))]
    have hsj1 : 1 ≤ s - j := by omega
    have heven : 2 ^ (s - j) * x % 2 = 0 := by
      have : (2:Nat) ^ (s - j) = 2 * 2 ^ (s - j - 1) := by
        rw [← two_pow_succ_eq]
        congr 1
        omega
      rw [this, Nat.mul_assoc, Nat.mul_mod_right]
    rw [hd]
    simp [heven]

theorem testBit_two_pow_diff (s e j : Nat) (h : s ≤ e) :
    (2 ^ e - 2 ^ s).testBit j = (decide (s ≤ j) && decide (j < e)) := by
  have hfac : (2:Nat) ^ e - 2 ^ s = 2 ^ s * (2 ^ (e - s) - 1) := by
    rw [Nat.mul_sub_left_distrib, Nat.mul_one, ← pow_add]
    congr 2
    omega
  rw [hfac, testBit_mul_pow]
  by_cases hsj : s ≤ j
  · rw [if_pos hsj, Nat.testBit_two_pow_sub_one]
    by_cases hje : j < e
    · have h1 : j - s < e - s := by omega
      simp [hsj, hje, h1]
    · have h1 : ¬ (j - s < e - s) := by omega
      simp [hsj, hje, h1]
  · rw [if_neg hsj]
    simp [hsj]

theorem testBit_add_two_pow (i x j : Nat) (hx : x < 2 ^ i) :
    (2 ^ i + x).testBit j = (decide (j = i) || x.testBit j) := by
  rcases Nat.lt_trichotomy j i with hj | hj | hj
  · have hne : j ≠ i := by omega
    rw [Nat.testBit_to_div_mod, Nat.testBit_to_div_mod]
    have he : (2:Nat) ^ i = 2 ^ j * 2 ^ (i - j) := by
      rw [← pow_add]
      congr 1
      omega
    have hd : (2 ^ i + x) / 2 ^ j = 2 ^ (i - j) + x / 2 ^ j := by
      rw [he, Nat.mul_add_div (Nat.pos_pow_of_pos j (by omega))]
    rw [hd]
    have heven : (2:Nat) ^ (i - j) % 2 = 0 := by
      have h2 : (2:Nat) ^ (i - j) = 2 * 2 ^ (i - j - 1) := by
        rw [← two_pow_succ_eq]
        congr 1
        omega
      omega
    have hm : (2 ^ (i - j) + x / 2 ^ j) % 2 = x / 2 ^ j % 2 := by omega
    rw [hm]
    simp [hne]
  · subst hj
    have hd : (2 ^ j + x) / 2 ^ j = 1 := by
      rw [Nat.add_comm, Nat.add_div_right _ (Nat.pos_pow_of_pos j (by omega)),
        Nat.div_eq_of_lt hx]
    rw [Nat.testBit_to_div_mod, hd]
    simp
  · have hne : j ≠ i := by omega
    have hlt : 2 ^ i + x < 2 ^ j := by
      have h1 : (2:Nat) ^ (i + 1) ≤ 2 ^ j := Nat.pow_le_pow_right (by omega) (by omega)
      rw [two_pow_succ_eq] at h1
      omega
    have hxlt : x < 2 ^ j := by omega
    rw [Nat.testBit_lt_two_pow hlt, Nat.testBit_lt_two_pow hxlt]
    simp [hne]

theorem matchBits_lt (tags : List Nat) (tag : Nat) :
    ∀ n, matchBits tags tag n < 2 ^ n := by
  intro n
  induction n with
  | zero => simp [matchBits]
  | succ n ih =>
      simp only [matchBits, two_pow_succ_eq]
      split
      · omega
      · omega

theorem matchBits_testBit (tags : List Nat) (tag : Nat) :
    ∀ n j, (matchBits tags tag n).testBit j =
      (decide (j < n) && decide (tags.getD j 0 % 256 = tag)) := by
  intro n
  induction n with
  | zero => intro j; simp [matchBits]
  | succ n ih =>
      intro j
      simp only [matchBits]
      by_cases hc : tags.getD n 0 % 256 = tag
      · rw [if_pos hc, testBit_add_two_pow n _ j (matchBits_lt tags tag n), ih j]
        rcases Nat.lt_trichotomy j n with hj | hj | hj
        · have h1 : j ≠ n := by omega
          have h2 : j < n + 1 := by omega
          simp [h1, hj, h2]
        · subst hj
          have hc2 : tags[j]?.getD 0 % 256 = tag := by
            rw [← List.getD_eq_getElem?_getD]
            exact hc
          simp [hc2]
        · have h1 : j ≠ n := by omega
          have h2 : ¬ (j < n) := by omega
          have h3 : ¬ (j < n + 1) := by omega
          simp [h1, h2, h3]
      · rw [if_neg hc, Nat.zero_add, ih j]
        rcases Nat.lt_trichotomy j n with hj | hj | hj
        · have h2 : j < n + 1 := by omega
          simp [hj, h2]
        · subst hj
          have h2 : ¬ (j < j) := by omega
          have hc2 : ¬ (tags[j]?.getD 0 % 256 = tag) := by
            rw [← List.getD_eq_getElem?_getD]
            exact hc
          simp [h2, hc2]
        · have h2 : ¬ (j < n) := by omega
          have h3 : ¬ (j < n + 1) := by omega
          simp [h2, h3]

theorem wrap_sub_eq (a b : Nat) (hb : b ≤ a) (ha : a < 2 ^ 64) :
    (a + 2 ^ 64 - b) % 2 ^ 64 = a - b := by
  have h1 : a + 2 ^ 64 - b = 2 ^ 64 + (a - b) := by omega
  rw [h1, Nat.add_mod_left]
  exact Nat.mod_eq_of_lt (by omega)

/-- The scalar `generate_match_mask` computes exactly the run-restricted
tag matches of the addressed bucket: bit `j` of the returned mask is set
iff slot `j` lies in the bucket's run and its cell's low byte equals the
tag. -/
theorem generate_match_mask_testBit (f : VqfFilter) (tag bi : Nat)
    (hmd : (blockAt f (bi / 36)).md < 2 ^ 64)
    (hopc : bi % 36 < popcountA 64 (blockAt f (bi / 36)).md)
    (hre : selPosA 64 (blockAt f (bi / 36)).md (bi % 36) - bi % 36 ≤ 28)
    (j : Nat) :
    (generate_match_mask f tag bi).testBit j =
      (decide (inRun (blockAt f (bi / 36)).md (bi % 36) j) &&
       decide ((blockAt f (bi / 36)).tags.getD j 0 % 256 = tag)) := by
  set md := (blockAt f (bi / 36)).md with hmdd
  set tgs := (blockAt f (bi / 36)).tags with htgs
  set o := bi % 36 with ho
  have hzbo : selPosA 64 md o - o ≤ 28 := hre
  have hre4 : selPosA 64 md o - o + 4 ≤ 59 := by omega
  have hend : lookup_64 md o = 2 ^ (runEnd md o - 0 + 4) := by
    rw [lookup_64_eq md o hmd hopc (by omega)]
    rfl
  have hstart : (if o ≠ 0 then lookup_64 md (o - 1) else one 0 * 2 ^ 4) =
      2 ^ (runStart md o + 4) := by
    by_cases h0 : o = 0
    · simp [h0, runStart, one]
    · rw [if_pos h0]
      have ho1pc : o - 1 < popcountA 64 md := by omega
      have hlt : selPosA 64 md (o - 1) < selPosA 64 md o := by
        have := selPosA_succ_lt 64 md (o - 1) (by omega)
        have he : o - 1 + 1 = o := by omega
        rwa [he] at this
      have hge1 : o - 1 ≤ selPosA 64 md (o - 1) := selPosA_ge 64 md (o - 1) ho1pc
      have hzb1 : selPosA 64 md (o - 1) - (o - 1) ≤ 28 := by omega
      rw [lookup_64_eq md (o - 1) hmd ho1pc (by omega)]
      congr 1
      have hge : o - 1 ≤ selPosA 64 md (o - 1) := selPosA_ge 64 md (o - 1) ho1pc
      unfold runStart selPos
      rw [if_neg h0]
      omega
  have hmono : runStart md o ≤ runEnd md o := by
    unfold runStart runEnd selPos
    by_cases h0 : o = 0
    · simp [h0]
    · rw [if_neg h0]
      have hlt : selPosA 64 md (o - 1) < selPosA 64 md o := by
        have := selPosA_succ_lt 64 md (o - 1) (by omega)
        have he : o - 1 + 1 = o := by omega
        rwa [he] at this
      have hge : o - 1 ≤ selPosA 64 md (o - 1) := selPosA_ge 64 md (o - 1) (by omega)
      omega
  have hreb : runEnd md o ≤ 28 := by
    unfold runEnd selPos
    omega
  show ((lookup_64 md o + 2 ^ 64 -
      (if o ≠ 0 then lookup_64 md (o - 1) else one 0 * 2 ^ 4)) % 2 ^ 64 / 2 ^ 4 &&&
      matchBits tgs tag 28).testBit j = _
  rw [hend, hstart]
  have hlte : (2:Nat) ^ (runEnd md o - 0 + 4) < 2 ^ 64 :=
    Nat.pow_lt_pow_right (by omega) (by omega)
  have hble : (2:Nat) ^ (runStart md o + 4) ≤ 2 ^ (runEnd md o - 0 + 4) :=
    Nat.pow_le_pow_right (by omega) (by omega)
  rw [wrap_sub_eq _ _ hble hlte]
  have hfact : (2:Nat) ^ (runEnd md o - 0 + 4) - 2 ^ (runStart md o + 4) =
      2 ^ 4 * (2 ^ (runEnd md o) - 2 ^ (runStart md o)) := by
    rw [Nat.mul_sub_left_distrib, ← pow_add, ← pow_add]
    congr 2 <;> omega
  rw [hfact, Nat.mul_div_cancel_left _ (by norm_num : (0:Nat) < 2 ^ 4)]
  rw [Nat.testBit_land, testBit_two_pow_diff _ _ _ (by omega),
    matchBits_testBit tgs tag 28 j]
  by_cases h1 : runStart md o ≤ j
  · by_cases h2 : j < runEnd md o
    · have h3 : j < 28 := by omega
      have h4 : inRun md o j := ⟨h1, h2⟩
      simp [h1, h2, h3, h4]
    · have h4 : ¬ inRun md o j := fun h => h2 h.2
      simp [h2, h4]
  · have h4 : ¬ inRun md o j := fun h => h1 h.1
    simp [h1, h4]

theorem runEnd_le_28 (md o : Nat) (hpc : 36 ≤ popcountA 64 md) (ho : o < 36) :
    runEnd md o ≤ 28 := by
  unfold runEnd selPos
  have := selPosA_zb 64 md o (by omega)
  omega

/-- The match mask is zero exactly when no slot of the bucket's run holds
the tag. -/
theorem generate_match_mask_zero_iff (f : VqfFilter) (tag bi : Nat)
    (hmd : (blockAt f (bi / 36)).md < 2 ^ 64)
    (hopc : bi % 36 < popcountA 64 (blockAt f (bi / 36)).md)
    (hre : selPosA 64 (blockAt f (bi / 36)).md (bi % 36) - bi % 36 ≤ 28) :
    generate_match_mask f tag bi = 0 ↔
      ∀ j, ¬ (inRun (blockAt f (bi / 36)).md (bi % 36) j ∧
        (blockAt f (bi / 36)).tags.getD j 0 % 256 = tag) := by
  constructor
  · intro h0 j hj
    have hb := generate_match_mask_testBit f tag bi hmd hopc hre j
    rw [h0, Nat.zero_testBit] at hb
    rcases hj with ⟨h1, h2⟩
    simp [h1, h2, -List.getD_eq_getElem?_getD] at hb
  · intro hno
    apply Nat.eq_of_testBit_eq
    intro j
    rw [generate_match_mask_testBit f tag bi hmd hopc hre j, Nat.zero_testBit]
    by_cases h1 : inRun (blockAt f (bi / 36)).md (bi % 36) j
    · have h2 : ¬ ((blockAt f (bi / 36)).tags.getD j 0 % 256 = tag) :=
        fun hc => hno j ⟨h1, hc⟩
      simp [h2, -List.getD_eq_getElem?_getD]
    · simp [h1, -List.getD_eq_getElem?_getD]

/-- The match mask is the singleton `2^s` when slot `s` is the unique
run-restricted match. -/
theorem generate_match_mask_eq_pow (f : VqfFilter) (tag bi s : Nat)
    (hmd : (blockAt f (bi / 36)).md < 2 ^ 64)
    (hopc : bi % 36 < popcountA 64 (blockAt f (bi / 36)).md)
    (hre : selPosA 64 (blockAt f (bi / 36)).md (bi % 36) - bi % 36 ≤ 28)
    (hs : inRun (blockAt f (bi / 36)).md (bi % 36) s)
    (hmatch : (blockAt f (bi / 36)).tags.getD s 0 % 256 = tag)
    (huniq : ∀ j, j ≠ s →
      ¬ (inRun (blockAt f (bi / 36)).md (bi % 36) j ∧
        (blockAt f (bi / 36)).tags.getD j 0 % 256 = tag)) :
    generate_match_mask f tag bi = 2 ^ s := by
  apply Nat.eq_of_testBit_eq
  intro j
  rw [generate_match_mask_testBit f tag bi hmd hopc hre j, Nat.testBit_two_pow]
  by_cases hj : j = s
  · subst hj
    simp [hs, hmatch, -List.getD_eq_getElem?_getD]
  · have h1 : ¬ (s = j) := fun h => hj h.symm
    have h2 := huniq j hj
    by_cases h3 : inRun (blockAt f (bi / 36)).md (bi % 36) j
    · have h4 : ¬ ((blockAt f (bi / 36)).tags.getD j 0 % 256 = tag) :=
        fun hc => h2 ⟨h3, hc⟩
      simp [h1, h4, -List.getD_eq_getElem?_getD]
    · simp [h1, h3, -List.getD_eq_getElem?_getD]

/-- The push loop of `retrieve_values` appends the upper bytes of the
cells at the set bits of the mask, in increasing bit order. -/
theorem pushLoopA_eq (fuel : Nat) : ∀ mask i acc tags,
    pushLoopA fuel mask i tags acc =
      acc ++ ((List.range fuel).filter fun j => mask.testBit j).map
        (fun j => tags.getD (i + j) 0 / 2 ^ 8) := by
  induction fuel with
  | zero => intro mask i acc tags; simp [pushLoopA]
  | succ fuel ih =>
      intro mask i acc tags
      simp only [pushLoopA]
      by_cases h0 : mask = 0
      · rw [if_pos h0]
        have hf : ((List.range (fuel + 1)).filter fun j => mask.testBit j) = [] := by
          rw [List.filter_eq_nil_iff]
          intro a _
          simp [h0, Nat.zero_testBit]
        simp [hf]
      · rw [if_neg h0, ih]
        rw [List.range_succ_eq_map, List.filter_cons]
        have hcomp : ((fun j => mask.testBit j) ∘ Nat.succ) =
            fun j => (mask / 2).testBit j := by
          funext j
          simp [Function.comp, Nat.testBit_succ]
        rw [List.filter_map, hcomp]
        by_cases hb : mask % 2 = 1
        · have ht : mask.testBit 0 = true := by simp [Nat.testBit_zero, hb]
          rw [if_pos hb]
          simp only [ht, if_true, List.map_cons, List.map_map]
          rw [List.append_assoc]
          simp only [List.cons_append, List.nil_append, Nat.add_zero]
          congr 1
          congr 1
          apply List.map_congr_left
          intro a _
          have he : i + (a + 1) = i + 1 + a := by omega
          simp [Function.comp, he]
        · have hb0 : mask % 2 = 0 := by omega
          have ht : mask.testBit 0 = false := by simp [Nat.testBit_zero, hb]
          rw [if_neg hb]
          simp only [ht, Bool.false_eq_true, if_false, List.map_map]
          congr 1
          apply List.map_congr_left
          intro a _
          have he : i + (a + 1) = i + 1 + a := by omega
          simp [Function.comp, he]

/-- Filtering a longer `range` adds nothing when the predicate is false
from `n` on. -/
theorem filter_range_shrink (n m : Nat) (h : n ≤ m) (p : Nat → Bool)
    (hp : ∀ j, n ≤ j → p j = false) :
    (List.range m).filter p = (List.range n).filter p := by
  have hm : m = n + (m - n) := by omega
  rw [hm, List.range_add, List.filter_append]
  have h2 : ((List.range (m - n)).map fun x => n + x).filter p = [] := by
    rw [List.filter_eq_nil_iff]
    intro a ha
    rcases List.mem_map.mp ha with ⟨b, _, hb⟩
    subst hb
    simp [hp (n + b) (by omega)]
  rw [h2, List.append_nil]

/-! ## Filter state plumbing -/

theorem setBlock_metadata (f : VqfFilter) (i : Nat) (b : VqfBlock) :
    (setBlock f i b).metadata = f.metadata := rfl

theorem blockAt_setBlock_self (f : VqfFilter) (i : Nat) (b : VqfBlock)
    (h : i < f.blocks.length) : blockAt (setBlock f i b) i = b := by
  unfold blockAt setBlock
  rw [List.getD_eq_getElem?_getD, List.getElem?_set_self (by simpa using h)]
  rfl

theorem blockAt_setBlock_ne (f : VqfFilter) (i j : Nat) (b : VqfBlock)
    (h : i ≠ j) : blockAt (setBlock f i b) j = blockAt f j := by
  unfold blockAt setBlock
  rw [List.getD_eq_getElem?_getD, List.getElem?_set_ne h,
    ← List.getD_eq_getElem?_getD]

theorem blockAt_mem (f : VqfFilter) (i : Nat) (h : i < f.blocks.length) :
    blockAt f i ∈ f.blocks := by
  unfold blockAt
  rw [List.getD_eq_getElem?_getD, List.getElem?_eq_getElem h]
  exact List.getElem_mem h

theorem update_md_lt (md i : Nat) : update_md md i < 2 ^ 64 := by
  unfold update_md pdep
  exact pdepA_lt 64 _ _

/-- A value below `2^8` or-ed with a multiple of `2^8` is their sum:
`tag | (val << 8)` stores the tag in the low byte and the value above it. -/
theorem lor_low_high (t w : Nat) (ht : t < 2 ^ 8) :
    t ||| w * 2 ^ 8 = t + w * 2 ^ 8 := by
  apply Nat.eq_of_testBit_eq
  intro j
  rw [Nat.testBit_lor]
  have hm : w * 2 ^ 8 = 2 ^ 8 * w := Nat.mul_comm _ _
  by_cases hj : j < 8
  · have h1 : (w * 2 ^ 8).testBit j = false := by
      have hnj : ¬ (8 ≤ j) := by omega
      rw [hm, testBit_mul_pow, if_neg hnj]
    have h2 : (t + w * 2 ^ 8).testBit j = t.testBit j := by
      rw [Nat.testBit_to_div_mod, Nat.testBit_to_div_mod]
      have hd : (t + w * 2 ^ 8) / 2 ^ j = t / 2 ^ j + 2 ^ (8 - j) * w := by
        have hw8 : w * 2 ^ 8 = 2 ^ (8 - j) * w * 2 ^ j := by
          rw [Nat.mul_comm (2 ^ (8 - j)) w, Nat.mul_assoc, ← pow_add]
          congr 2
          omega
        rw [hw8, Nat.add_mul_div_right _ _ (Nat.pos_pow_of_pos j (by omega))]
      rw [hd]
      have heven : (2:Nat) ^ (8 - j) * w % 2 = 0 := by
        have h3 : (2:Nat) ^ (8 - j) = 2 * 2 ^ (8 - j - 1) := by
          rw [← two_pow_succ_eq]
          congr 1
          omega
        rw [h3, Nat.mul_assoc, Nat.mul_mod_right]
      have : (t / 2 ^ j + 2 ^ (8 - j) * w) % 2 = t / 2 ^ j % 2 := by omega
      rw [this]
    rw [h1, h2, Bool.or_false]
  · have h1 : t.testBit j = false :=
      Nat.testBit_lt_two_pow (lt_of_lt_of_le ht (Nat.pow_le_pow_right (by omega) (by omega)))
    have h2 : (t + w * 2 ^ 8).testBit j = (w * 2 ^ 8).testBit j := by
      rw [Nat.testBit_to_div_mod, Nat.testBit_to_div_mod]
      have he : (2:Nat) ^ j = 2 ^ 8 * 2 ^ (j - 8) := by
        rw [← pow_add]
        congr 1
        omega
      have hd1 : (t + w * 2 ^ 8) / 2 ^ j = w / 2 ^ (j - 8) := by
        rw [he, ← Nat.div_div_eq_div_mul, Nat.mul_comm w,
          Nat.add_mul_div_left _ _ (Nat.pos_pow_of_pos 8 (by omega)),
          Nat.div_eq_of_lt ht, Nat.zero_add]
      have hd2 : w * 2 ^ 8 / 2 ^ j = w / 2 ^ (j - 8) := by
        rw [he, ← Nat.div_div_eq_div_mul, Nat.mul_div_cancel _ (by norm_num)]
      rw [hd1, hd2]
    rw [h1, h2, Bool.false_or]

/-- Querying the bucket that `vqf_insert_val` just extended returns the
stored value, provided no other cell of that bucket's run carries the same
tag.  The block of filter `f'` at `cb / 36` is the result of inserting the
16-bit cell `t + w·2^8` at slot `s` (the end of bucket `cb % 36`'s run)
into a block with metadata `mdb` and tags `tgs`, the metadata having a
zero inserted at bit `q`. -/
theorem retrieve_value_inserted (f' : VqfFilter) (cb mdb : Nat) (tgs : List Nat)
    (t w q s : Nat)
    (hmd : mdb < 2 ^ 64) (hopc : cb % 36 < popcountA 64 mdb)
    (hlen : tgs.length = 28) (ht : t < 256) (hw : w < 256)
    (hq : q = selPosA 64 mdb (cb % 36)) (hsdef : s = q - cb % 36) (hs : s ≤ 27)
    (hb : blockAt f' (cb / 36) =
      ⟨mdb % 2 ^ q + 2 ^ (q + 1) * (mdb / 2 ^ q % 2 ^ (63 - q)),
       tgs.take s ++ (t + w * 2 ^ 8) :: (tgs.drop s).take (27 - s)⟩)
    (hother : ∀ j, j ≠ s →
      inRun (blockAt f' (cb / 36)).md (cb % 36) j →
      (blockAt f' (cb / 36)).tags.getD j 0 % 256 ≠ t) :
    retrieve_value f' t cb = some w := by
  have h256 : (256:Nat) = 2 ^ 8 := by norm_num
  set o := cb % 36 with hodef
  have ho35 : o ≤ 35 := by
    have : o < 36 := Nat.mod_lt _ (by omega)
    omega
  have hoq : o ≤ q := hq ▸ selPosA_ge 64 mdb o hopc
  have hqos : q = o + s := by omega
  have hq62 : q ≤ 62 := by omega
  set A := mdb % 2 ^ q with hA
  set B := mdb / 2 ^ q % 2 ^ (63 - q) with hB
  have hAlt : A < 2 ^ q := Nat.mod_lt _ (Nat.pos_pow_of_pos q (by omega))
  have hBlt : B < 2 ^ (63 - q) := Nat.mod_lt _ (Nat.pos_pow_of_pos _ (by omega))
  set md' := A + 2 ^ (q + 1) * B with hmdPrimeDef
  have hq1lt : (2:Nat) ^ q < 2 ^ (q + 1) := Nat.pow_lt_pow_right (by omega) (by omega)
  have hmd' : md' < 2 ^ 64 := by
    have h2 : (2:Nat) ^ (q + 1) * 2 ^ (63 - q) = 2 ^ 64 := by
      rw [← pow_add]
      congr 1
      omega
    have h1 : B ≤ 2 ^ (63 - q) - 1 := by omega
    have h8 : 2 ^ (q + 1) * (2 ^ (63 - q) - 1) + 2 ^ (q + 1) = 2 ^ 64 := by
      rw [← Nat.mul_succ, Nat.succ_eq_add_one,
        Nat.sub_add_cancel Nat.one_le_two_pow]
      exact h2
    have h7 := Nat.mul_le_mul_left (2 ^ (q + 1)) h1
    omega
  have hmodA : md' % 2 ^ (q + 1) = A := by
    rw [hmdPrimeDef, Nat.add_mul_mod_self_left]
    exact Nat.mod_eq_of_lt (lt_trans hAlt hq1lt)
  have hdivB : md' / 2 ^ (q + 1) = B := by
    rw [hmdPrimeDef, Nat.add_mul_div_left _ _ (Nat.pos_pow_of_pos (q + 1) (by omega)),
      Nat.div_eq_of_lt (lt_trans hAlt hq1lt), Nat.zero_add]
  have hpref : A = md' % 2 ^ q := by
    have h1 : md' = A + 2 ^ q * (2 * B) := by
      rw [hmdPrimeDef, two_pow_succ_eq]
      ring
    rw [h1, Nat.add_mul_mod_self_left, Nat.mod_eq_of_lt hAlt]
  have hsel' : selPosA 64 md' o = q + 1 := by
    apply selPosA_at (q + 1) 64 md' o (by omega)
    · rw [hmodA]
      have hf : popcountA (q + 1) A = popcountA 64 A :=
        (popcountA_fuel 64 (q + 1) A (lt_trans hAlt hq1lt) (by omega)).symm
      rw [hf, hA, hq]
      exact selPosA_pc_below 64 mdb o hopc
    · rw [hdivB, hB]
      have hd : 2 ∣ 2 ^ (63 - q) := by
        have h1 : (63:Nat) - q = (63 - q - 1) + 1 := by omega
        rw [h1, two_pow_succ_eq]
        exact ⟨2 ^ (63 - q - 1), rfl⟩
      rw [Nat.mod_mod_of_dvd _ hd, hq]
      exact selPosA_bit 64 mdb o hopc
  have hopc' : o < popcountA 64 md' := by
    rw [← selPosA_lt_iff, hsel']
    omega
  have hre' : selPosA 64 md' o - o ≤ 28 := by
    rw [hsel']
    omega
  have hrunEnd' : runEnd md' o = s + 1 := by
    unfold runEnd selPos
    rw [hsel']
    omega
  have hrunStart' : runStart md' o ≤ s := by
    unfold runStart
    by_cases h0 : o = 0
    · simp [h0]
    · rw [if_neg h0]
      have ho1pc : o - 1 < popcountA 64 mdb := by omega
      have hlt : selPosA 64 mdb (o - 1) < q := by
        rw [hq]
        have hst := selPosA_succ_lt 64 mdb (o - 1) (by omega)
        have he : o - 1 + 1 = o := by omega
        rwa [he] at hst
      have hlow : selPosA 64 md' (o - 1) = selPosA 64 mdb (o - 1) :=
        selPosA_low 64 q mdb md' (o - 1) (hA.symm.trans hpref) hlt
      unfold selPos
      rw [hlow]
      have hge1 : o - 1 ≤ selPosA 64 mdb (o - 1) := selPosA_ge 64 mdb (o - 1) ho1pc
      omega
  have hinRun : inRun md' o s := by
    refine ⟨hrunStart', ?_⟩
    rw [hrunEnd']
    omega
  have hlen_take : (tgs.take s).length = s := by
    rw [List.length_take]
    omega
  have hgetDs : (tgs.take s ++ (t + w * 2 ^ 8) :: (tgs.drop s).take (27 - s)).getD s 0 =
      t + w * 2 ^ 8 := by
    rw [List.getD_append_right _ _ _ s (by omega), hlen_take, Nat.sub_self,
      List.getD_cons_zero]
  have hmatch : (t + w * 2 ^ 8) % 256 = t := by
    rw [← h256, Nat.add_mul_mod_self_right]
    exact Nat.mod_eq_of_lt ht
  have hmask : generate_match_mask f' t cb = 2 ^ s := by
    apply generate_match_mask_eq_pow f' t cb s
    · rw [hb]
      exact hmd'
    · rw [hb]
      exact hopc'
    · rw [hb]
      exact hre'
    · rw [hb]
      exact hinRun
    · rw [hb, hgetDs, hmatch]
    · intro j hj
      rintro ⟨hir, hmt⟩
      exact hother j hj hir hmt
  have hne0 : generate_match_mask f' t cb ≠ 0 := by
    rw [hmask]
    exact Nat.pos_iff_ne_zero.mp (Nat.pos_pow_of_pos s (by omega))
  show (if generate_match_mask f' t cb = 0 then none
    else some ((blockAt f' (cb / 36)).tags.getD (tzcnt (generate_match_mask f' t cb)) 0 / 2 ^ 8)) =
      some w
  rw [if_neg hne0, hmask, tzcnt_pow s (by omega), hb, hgetDs]
  congr 1
  rw [Nat.add_mul_div_right _ _ (Nat.pos_pow_of_pos 8 (by omega)),
    Nat.div_eq_of_lt (by omega), Nat.zero_add]

set_option maxRecDepth 8000 in
/-- Main round-trip theorem for C2. -/
theorem insert_val_roundtrip (f : VqfFilter) (h v cb : Nat)
    (hWF : filterWF f) (hh : h < f.metadata.range) (hv : v < 256)
    (hcb : chosenBI f h = some cb)
    (hslot : insertSlot f cb ≤ 27)
    (hoP : ∀ j, ¬ (primaryIndex f h = cb ∧ j = insertSlot f cb) →
      inRun (blockAt (vqf_insert_val f h v).1 (primaryIndex f h / 36)).md
        (primaryIndex f h % 36) j →
      (blockAt (vqf_insert_val f h v).1 (primaryIndex f h / 36)).tags.getD j 0 % 256 ≠
        h % 256)
    (hoA : ∀ j, ¬ (altIndex f h = cb ∧ j = insertSlot f cb) →
      inRun (blockAt (vqf_insert_val f h v).1 (altIndex f h / 36)).md
        (altIndex f h % 36) j →
      (blockAt (vqf_insert_val f h v).1 (altIndex f h / 36)).tags.getD j 0 % 256 ≠
        h % 256) :
    (vqf_insert_val f h v).2 = true ∧
      vqf_query (vqf_insert_val f h v).1 h = some v := by
  obtain ⟨hkr, hrange, hlen, hpos, hblocks⟩ := hWF
  have h28 : (2:Nat) ^ 8 = 256 := by norm_num
  -- bucket indices are in range
  have hpIlt : primaryIndex f h / 36 < f.metadata.nblocks := by
    have h1 : primaryIndex f h = h / 256 := by
      unfold primaryIndex
      rw [hkr, h28]
    rw [h1]
    rw [hrange] at hh
    rw [h28] at hh
    omega
  have haIlt : altIndex f h / 36 < f.metadata.nblocks := by
    have hrpos : 0 < f.metadata.range := by
      rw [hrange, h28]
      positivity
    have h1 : altIndex f h =
        (h ^^^ h % 256 * 0x5bd1e995) % 2 ^ 64 % f.metadata.range / 256 := by
      unfold altIndex
      rw [hkr, h28]
    have h2 : (h ^^^ h % 256 * 0x5bd1e995) % 2 ^ 64 % f.metadata.range <
        f.metadata.nblocks * 36 * 256 :=
      lt_of_lt_of_le (Nat.mod_lt _ hrpos) (le_of_eq (by rw [hrange, h28]))
    rw [h1]
    omega
  -- the chosen bucket is the primary, or the alternate in a different block
  have hcb2 := hcb
  have hcb_cases : cb = primaryIndex f h ∨
      (cb = altIndex f h ∧ primaryIndex f h / 36 ≠ altIndex f h / 36) := by
    simp only [chosenBI] at hcb2
    split at hcb2
    · rename_i hC
      split at hcb2
      · right
        exact ⟨(Option.some.inj hcb2).symm, hC.2⟩
      · split at hcb2
        · exact absurd hcb2 (by simp)
        · left
          exact (Option.some.inj hcb2).symm
    · left
      exact (Option.some.inj hcb2).symm
  have hicb : cb / 36 < f.metadata.nblocks := by
    rcases hcb_cases with h1 | ⟨h1, _⟩ <;> rw [h1]
    · exact hpIlt
    · exact haIlt
  have hicbl : cb / 36 < f.blocks.length := by rw [hlen]; exact hicb
  -- well-formedness of the chosen block
  have hbwf : blockWF (blockAt f (cb / 36)) := hblocks _ (blockAt_mem f _ hicbl)
  obtain ⟨hbmd, hbpc0, hbtlen, _⟩ := hbwf
  have hbpc : 36 ≤ popcountA 64 (blockAt f (cb / 36)).md := by
    rwa [word_rank_eq _ hbmd] at hbpc0
  have ho36 : cb % 36 < 36 := Nat.mod_lt _ (by omega)
  have hopc : cb % 36 < popcountA 64 (blockAt f (cb / 36)).md := by omega
  have hq_ge : cb % 36 ≤ selPosA 64 (blockAt f (cb / 36)).md (cb % 36) :=
    selPosA_ge _ _ _ hopc
  have hs_eq : insertSlot f cb =
      selPosA 64 (blockAt f (cb / 36)).md (cb % 36) - cb % 36 := rfl
  have hs27 : selPosA 64 (blockAt f (cb / 36)).md (cb % 36) - cb % 36 ≤ 27 := by
    rw [← hs_eq]
    exact hslot
  have hq62 : selPosA 64 (blockAt f (cb / 36)).md (cb % 36) ≤ 62 := by omega
  have hsel : select_64 (blockAt f (cb / 36)).md (cb % 36) =
      selPosA 64 (blockAt f (cb / 36)).md (cb % 36) - cb % 36 + 4 :=
    select_64_eq _ _ hbmd hopc (by omega)
  -- the stored 16-bit cell
  have ht256 : h % 256 < 256 := Nat.mod_lt _ (by omega)
  have hstored : h % 256 ||| v % 256 * 2 ^ 8 = h % 256 + v * 2 ^ 8 := by
    rw [Nat.mod_eq_of_lt hv]
    exact lor_low_high _ v (by omega)
  have hstored16 : (h % 256 + v * 2 ^ 8) % 2 ^ 16 = h % 256 + v * 2 ^ 8 := by
    have h16 : (2:Nat) ^ 16 = 65536 := by norm_num
    rw [h16, h28]
    omega
  -- the insert, rewritten through the chosen-bucket decision
  have hbridge : vqf_insert_val f h v =
      (match chosenBI f h with
       | none => (f, false)
       | some chosen =>
           let index := chosen / 36
           let offset := chosen % 36
           let md := (blockAt f index).md
           let slot_index := select_64 md offset
           let select_index := (slot_index + offset + (2 ^ 64 - 4)) % 2 ^ 64
           let b1 := update_tags_512 (blockAt f index) slot_index (h % 256 ||| v % 256 * 2 ^ 8)
           let b2 := { b1 with md := update_md b1.md select_index }
           (setBlock f index b2, true)) := by
    simp only [vqf_insert_val, chosenBI, primaryIndex, altIndex]
  rw [hcb] at hbridge
  simp only [] at hbridge
  -- reduce the tag-array update
  have hb1 : update_tags_512 (blockAt f (cb / 36))
      (select_64 (blockAt f (cb / 36)).md (cb % 36)) (h % 256 ||| v % 256 * 2 ^ 8) =
      { blockAt f (cb / 36) with
        tags := (blockAt f (cb / 36)).tags.take
            (selPosA 64 (blockAt f (cb / 36)).md (cb % 36) - cb % 36) ++
          (h % 256 + v * 2 ^ 8) ::
            ((blockAt f (cb / 36)).tags.drop
              (selPosA 64 (blockAt f (cb / 36)).md (cb % 36) - cb % 36)).take
              (27 - (selPosA 64 (blockAt f (cb / 36)).md (cb % 36) - cb % 36)) } := by
    simp only [update_tags_512, hsel]
    have hidx : ((selPosA 64 (blockAt f (cb / 36)).md (cb % 36) - cb % 36 + 4) % 256 +
        252) % 256 = selPosA 64 (blockAt f (cb / 36)).md (cb % 36) - cb % 36 := by
      omega
    rw [hidx, if_pos (by omega), hstored, hstored16]
  -- reduce the metadata update position
  have hqsel : (select_64 (blockAt f (cb / 36)).md (cb % 36) + cb % 36 + (2 ^ 64 - 4)) %
      2 ^ 64 = selPosA 64 (blockAt f (cb / 36)).md (cb % 36) := by
    rw [hsel]
    have he : selPosA 64 (blockAt f (cb / 36)).md (cb % 36) - cb % 36 + 4 + cb % 36 +
        (2 ^ 64 - 4) = selPosA 64 (blockAt f (cb / 36)).md (cb % 36) + 2 ^ 64 := by
      have hp : (4:Nat) ≤ 2 ^ 64 := by norm_num
      omega
    rw [he, Nat.add_mod_right]
    have h64 : (62:Nat) < 2 ^ 64 := by norm_num
    exact Nat.mod_eq_of_lt (by omega)
  -- the fully reduced insert result
  have hf : vqf_insert_val f h v =
      (setBlock f (cb / 36) ⟨(blockAt f (cb / 36)).md % 2 ^ selPosA 64 (blockAt f (cb / 36)).md (cb % 36) + 2 ^ (selPosA 64 (blockAt f (cb / 36)).md (cb % 36) + 1) * ((blockAt f (cb / 36)).md / 2 ^ selPosA 64 (blockAt f (cb / 36)).md (cb % 36) % 2 ^ (63 - selPosA 64 (blockAt f (cb / 36)).md (cb % 36))), (blockAt f (cb / 36)).tags.take (selPosA 64 (blockAt f (cb / 36)).md (cb % 36) - cb % 36) ++ (h % 256 + v * 2 ^ 8) :: ((blockAt f (cb / 36)).tags.drop (selPosA 64 (blockAt f (cb / 36)).md (cb % 36) - cb % 36)).take (27 - (selPosA 64 (blockAt f (cb / 36)).md (cb % 36) - cb % 36))⟩, true) := by
    rw [hbridge, hb1]
    rw [hqsel]
    rw [update_md_eq _ _ hq62]
  have hins2 : (vqf_insert_val f h v).2 = true := by rw [hf]
  refine ⟨hins2, ?_⟩
  have hmeta : (vqf_insert_val f h v).1.metadata = f.metadata := by rw [hf]; rfl
  have hquery : vqf_query (vqf_insert_val f h v).1 h =
      (match retrieve_value (vqf_insert_val f h v).1 (h % 256) (primaryIndex f h) with
       | some x => some x
       | none => retrieve_value (vqf_insert_val f h v).1 (h % 256) (altIndex f h)) := by
    simp only [vqf_query, primaryIndex, altIndex, hmeta]
  have hbAt : blockAt (vqf_insert_val f h v).1 (cb / 36) =
      ⟨(blockAt f (cb / 36)).md % 2 ^ selPosA 64 (blockAt f (cb / 36)).md (cb % 36) + 2 ^ (selPosA 64 (blockAt f (cb / 36)).md (cb % 36) + 1) * ((blockAt f (cb / 36)).md / 2 ^ selPosA 64 (blockAt f (cb / 36)).md (cb % 36) % 2 ^ (63 - selPosA 64 (blockAt f (cb / 36)).md (cb % 36))), (blockAt f (cb / 36)).tags.take (selPosA 64 (blockAt f (cb / 36)).md (cb % 36) - cb % 36) ++ (h % 256 + v * 2 ^ 8) :: ((blockAt f (cb / 36)).tags.drop (selPosA 64 (blockAt f (cb / 36)).md (cb % 36) - cb % 36)).take (27 - (selPosA 64 (blockAt f (cb / 36)).md (cb % 36) - cb % 36))⟩ := by
    rw [hf]
    exact blockAt_setBlock_self f _ _ hicbl
  rcases hcb_cases with hP | ⟨hA, hPA⟩
  · -- the chosen bucket is the primary bucket
    rw [← hP] at hoP
    have hother : ∀ j, j ≠ (selPosA 64 (blockAt f (cb / 36)).md (cb % 36) - cb % 36) →
        inRun (blockAt (vqf_insert_val f h v).1 (cb / 36)).md (cb % 36) j →
        (blockAt (vqf_insert_val f h v).1 (cb / 36)).tags.getD j 0 % 256 ≠ h % 256 := by
      intro j hj hir
      exact hoP j (fun hc => hj (hs_eq ▸ hc.2)) hir
    have hretC : retrieve_value (vqf_insert_val f h v).1 (h % 256) cb = some v :=
      retrieve_value_inserted (vqf_insert_val f h v).1 cb (blockAt f (cb / 36)).md (blockAt f (cb / 36)).tags
        (h % 256) v (selPosA 64 (blockAt f (cb / 36)).md (cb % 36)) (selPosA 64 (blockAt f (cb / 36)).md (cb % 36) - cb % 36) hbmd hopc hbtlen ht256 hv rfl rfl hs27 hbAt hother
    rw [hquery, ← hP, hretC]
  · -- the chosen bucket is the alternate, in a different block
    have hPne : primaryIndex f h ≠ cb := by
      intro he
      exact hPA (by rw [he, hA])
    have hpIbl : primaryIndex f h / 36 < f.blocks.length := by
      rw [hlen]
      exact hpIlt
    have hsame : blockAt (vqf_insert_val f h v).1 (primaryIndex f h / 36) =
        blockAt f (primaryIndex f h / 36) := by
      rw [hf]
      apply blockAt_setBlock_ne
      rw [hA]
      exact fun heq => hPA heq.symm
    have hbwfP := hblocks _ (blockAt_mem f _ hpIbl)
    obtain ⟨hPmd, hPpc0, hPtlen, _⟩ := hbwfP
    have hPpc : 36 ≤ popcountA 64 (blockAt f (primaryIndex f h / 36)).md := by
      rwa [word_rank_eq _ hPmd] at hPpc0
    have hPopc : primaryIndex f h % 36 <
        popcountA 64 (blockAt f (primaryIndex f h / 36)).md := by
      have : primaryIndex f h % 36 < 36 := Nat.mod_lt _ (by omega)
      omega
    have hPre : selPosA 64 (blockAt f (primaryIndex f h / 36)).md
        (primaryIndex f h % 36) - primaryIndex f h % 36 ≤ 28 := by
      have := selPosA_zb 64 (blockAt f (primaryIndex f h / 36)).md
        (primaryIndex f h % 36) hPopc
      omega
    have hPmd2 : (blockAt (vqf_insert_val f h v).1 (primaryIndex f h / 36)).md <
        2 ^ 64 := by
      rw [hsame]
      exact hPmd
    have hPopc2 : primaryIndex f h % 36 <
        popcountA 64 (blockAt (vqf_insert_val f h v).1 (primaryIndex f h / 36)).md := by
      rw [hsame]
      exact hPopc
    have hPre2 : selPosA 64 (blockAt (vqf_insert_val f h v).1 (primaryIndex f h / 36)).md
        (primaryIndex f h % 36) - primaryIndex f h % 36 ≤ 28 := by
      rw [hsame]
      exact hPre
    have hmask0 : generate_match_mask (vqf_insert_val f h v).1 (h % 256)
        (primaryIndex f h) = 0 := by
      apply (generate_match_mask_zero_iff _ _ _ hPmd2 hPopc2 hPre2).mpr
      intro j hj
      exact hoP j (fun hc => hPne hc.1) hj.1 hj.2
    have hretP : retrieve_value (vqf_insert_val f h v).1 (h % 256)
        (primaryIndex f h) = none := by
      simp only [retrieve_value]
      rw [if_pos hmask0]
    rw [← hA] at hoA
    have hother : ∀ j, j ≠ (selPosA 64 (blockAt f (cb / 36)).md (cb % 36) - cb % 36) →
        inRun (blockAt (vqf_insert_val f h v).1 (cb / 36)).md (cb % 36) j →
        (blockAt (vqf_insert_val f h v).1 (cb / 36)).tags.getD j 0 % 256 ≠ h % 256 := by
      intro j hj hir
      exact hoA j (fun hc => hj (hs_eq ▸ hc.2)) hir
    have hretC : retrieve_value (vqf_insert_val f h v).1 (h % 256) cb = some v :=
      retrieve_value_inserted (vqf_insert_val f h v).1 cb (blockAt f (cb / 36)).md (blockAt f (cb / 36)).tags
        (h % 256) v (selPosA 64 (blockAt f (cb / 36)).md (cb % 36)) (selPosA 64 (blockAt f (cb / 36)).md (cb % 36) - cb % 36) hbmd hopc hbtlen ht256 hv rfl rfl hs27 hbAt hother
    rw [hquery, hretP, ← hA, hretC]


/-- `retrieve_values` appends exactly the matching values of the bucket
(in slot order) and reports whether there was any match. -/
theorem retrieve_values_eq (f : VqfFilter) (tag bi : Nat) (acc : List Nat)
    (hmd : (blockAt f (bi / 36)).md < 2 ^ 64)
    (hopc : bi % 36 < popcountA 64 (blockAt f (bi / 36)).md)
    (hre : selPosA 64 (blockAt f (bi / 36)).md (bi % 36) - bi % 36 ≤ 28) :
    retrieve_values f tag bi acc =
      (acc ++ bucketMatchVals f bi tag,
       decide (bucketMatchVals f bi tag ≠ [])) := by
  have hchar := generate_match_mask_testBit f tag bi hmd hopc hre
  have hlist : ((List.range 64).filter fun j =>
        (generate_match_mask f tag bi).testBit j).map
        (fun j => (blockAt f (bi / 36)).tags.getD (0 + j) 0 / 2 ^ 8) =
      bucketMatchVals f bi tag := by
    simp only [bucketMatchVals]
    have h1 : ((List.range 64).filter fun j =>
          (generate_match_mask f tag bi).testBit j) =
        ((List.range 28).filter fun j =>
          (generate_match_mask f tag bi).testBit j) := by
      apply filter_range_shrink 28 64 (by omega)
      intro j hj
      rw [hchar j]
      have hnr : ¬ inRun (blockAt f (bi / 36)).md (bi % 36) j := by
        intro hir
        have h2 : runEnd (blockAt f (bi / 36)).md (bi % 36) ≤ 28 := by
          unfold runEnd selPos
          omega
        have := hir.2
        omega
      simp [hnr]
    rw [h1]
    have h2 : ((List.range 28).filter fun j =>
          (generate_match_mask f tag bi).testBit j) =
        ((List.range 28).filter fun j =>
          decide (inRun (blockAt f (bi / 36)).md (bi % 36) j) &&
          decide ((blockAt f (bi / 36)).tags.getD j 0 % 256 = tag)) :=
      List.filter_congr fun j _ => hchar j
    rw [h2]
    apply List.map_congr_left
    intro j _
    rw [Nat.zero_add]
  have hzero : generate_match_mask f tag bi = 0 ↔ bucketMatchVals f bi tag = [] := by
    rw [generate_match_mask_zero_iff f tag bi hmd hopc hre]
    constructor
    · intro hno
      simp only [bucketMatchVals]
      rw [List.map_eq_nil_iff, List.filter_eq_nil_iff]
      intro j _
      have hnj := hno j
      simp only [not_and] at hnj
      by_cases h1 : inRun (blockAt f (bi / 36)).md (bi % 36) j
      · simp [h1, hnj h1, -List.getD_eq_getElem?_getD]
      · simp [h1]
    · intro hnil j hj
      rcases hj with ⟨h1, h2⟩
      by_cases hj28 : j < 28
      · simp only [bucketMatchVals] at hnil
        rw [List.map_eq_nil_iff, List.filter_eq_nil_iff] at hnil
        have := hnil j (List.mem_range.mpr hj28)
        simp [h1, h2, -List.getD_eq_getElem?_getD] at this
      · have h3 := h1.2
        unfold runEnd selPos at h3
        omega
  simp only [retrieve_values]
  by_cases h0 : generate_match_mask f tag bi = 0
  · rw [if_pos h0]
    have hnil := hzero.mp h0
    simp [hnil]
  · rw [if_neg h0]
    rw [pushLoopA_eq, hlist]
    have hne : bucketMatchVals f bi tag ≠ [] := fun hn => h0 (hzero.mpr hn)
    simp [hne]

/-- A bucket whose run is empty contains no slot. -/
theorem inRun_false_of_empty (md o j : Nat) (h : runEnd md o ≤ runStart md o) :
    ¬ inRun md o j := by
  intro hir
  have h1 := hir.1
  have h2 := hir.2
  omega

/-- A bucket whose run has at most one slot pins every member to its
start. -/
theorem inRun_singleton (md o j : Nat) (h : runEnd md o ≤ runStart md o + 1)
    (hir : inRun md o j) : j = runStart md o := by
  have h1 := hir.1
  have h2 := hir.2
  omega

/-- On a well-formed filter, every in-range bucket index satisfies the
hypotheses of the match-mask characterisation. -/
theorem bucket_hyps (f : VqfFilter) (bi : Nat) (hwf : filterWF f)
    (hbi : bi / 36 < f.metadata.nblocks) :
    (blockAt f (bi / 36)).md < 2 ^ 64 ∧
    bi % 36 < popcountA 64 (blockAt f (bi / 36)).md ∧
    selPosA 64 (blockAt f (bi / 36)).md (bi % 36) - bi % 36 ≤ 28 := by
  obtain ⟨hkr, hrange, hlen, hpos, hball⟩ := hwf
  have hmem : blockAt f (bi / 36) ∈ f.blocks := blockAt_mem f _ (by omega)
  obtain ⟨hmd, hpc36, -, -⟩ := hball _ hmem
  have hpc : 36 ≤ popcountA 64 (blockAt f (bi / 36)).md := by
    have h1 := hpc36
    unfold word_rank at h1
    rwa [Nat.mod_eq_of_lt hmd] at h1
  have ho : bi % 36 < 36 := Nat.mod_lt _ (by norm_num)
  have hre := runEnd_le_28 (blockAt f (bi / 36)).md (bi % 36) hpc ho
  unfold runEnd selPos at hre
  exact ⟨hmd, by omega, hre⟩

/-- The primary bucket of an in-range hash lies in an existing block. -/
theorem primaryIndex_div_lt (f : VqfFilter) (h : Nat) (hwf : filterWF f)
    (hh : h < f.metadata.range) : primaryIndex f h / 36 < f.metadata.nblocks := by
  obtain ⟨hkr, hrange, -, hpos, -⟩ := hwf
  unfold primaryIndex
  rw [hkr]
  rw [hrange] at hh
  have h28 : (2:Nat) ^ 8 = 256 := by norm_num
  rw [h28]
  omega

/-- The alternate bucket of any hash lies in an existing block. -/
theorem altIndex_div_lt (f : VqfFilter) (h : Nat) (hwf : filterWF f) :
    altIndex f h / 36 < f.metadata.nblocks := by
  obtain ⟨hkr, hrange, -, hpos, -⟩ := hwf
  unfold altIndex
  rw [hkr, hrange]
  have h28 : (2:Nat) ^ 8 = 256 := by norm_num
  rw [h28]
  have hlt : (h ^^^ h % 256 * 0x5bd1e995) % 2 ^ 64 % (f.metadata.nblocks * 36 * 256) <
      f.metadata.nblocks * 36 * 256 := Nat.mod_lt _ (by positivity)
  omega

/-- Claim C3 (amended): `vqf_query_iter` appends the matches of the primary
bucket when there are any, otherwise the matches of the alternate bucket,
and returns `true` iff the bucket it actually scanned to completion had a
match; the C short-circuit `||` skips the alternate bucket whenever the
primary bucket matched, so matches are not collected across both buckets. -/
theorem vqf_query_iter_characterization (f : VqfFilter) (h : Nat) (acc : List Nat)
    (hwf : filterWF f) (hh : h < f.metadata.range) :
    vqf_query_iter f h acc =
      if bucketMatchVals f (primaryIndex f h) (h % 256) ≠ [] then
        (acc ++ bucketMatchVals f (primaryIndex f h) (h % 256), true)
      else if bucketMatchVals f (altIndex f h) (h % 256) ≠ [] then
        (acc ++ bucketMatchVals f (altIndex f h) (h % 256), true)
      else (acc, false) := by
  obtain ⟨hP1, hP2, hP3⟩ := bucket_hyps f (primaryIndex f h) hwf
    (primaryIndex_div_lt f h hwf hh)
  obtain ⟨hA1, hA2, hA3⟩ := bucket_hyps f (altIndex f h) hwf
    (altIndex_div_lt f h hwf)
  simp only [vqf_query_iter]
  have hpeq : h / 2 ^ f.metadata.key_remainder_bits = primaryIndex f h := rfl
  have haeq : (h ^^^ h % 256 * 0x5bd1e995) % 2 ^ 64 % f.metadata.range /
      2 ^ f.metadata.key_remainder_bits = altIndex f h := rfl
  rw [hpeq, haeq]
  rw [retrieve_values_eq f (h % 256) (primaryIndex f h) acc hP1 hP2 hP3]
  by_cases hp : bucketMatchVals f (primaryIndex f h) (h % 256) = []
  · rw [hp]
    simp only [List.append_nil, ne_eq, not_true_eq_false, decide_False,
      Bool.false_eq_true, if_false]
    rw [retrieve_values_eq f (h % 256) (altIndex f h) acc hA1 hA2 hA3]
    by_cases ha : bucketMatchVals f (altIndex f h) (h % 256) = []
    · simp [ha]
    · simp [ha]
  · simp [hp]

/-- Claim C7 (amended): the metadata popcount is not pinned at 36 — every
word starts at 63 — but `update_md` (insert_md) changes `word_rank` by
exactly the top bit it shifts out: inserting a zero at position `p ≤ 62`
drops bit 63 and keeps every other set bit, so while bit 63 is set each
insertion decreases the popcount by one (reaching 36 exactly when the
block's 28 slots are full). -/
theorem update_md_word_rank (md p : Nat) (hmd : md < 2 ^ 64) (hp : p ≤ 62) :
    word_rank (update_md md p) + md / 2 ^ 63 = word_rank md := by
  have hq : update_md md p =
      md % 2 ^ p + 2 ^ (p + 1) * (md / 2 ^ p % 2 ^ (63 - p)) := update_md_eq md p hp
  have hlt := update_md_lt md p
  unfold word_rank
  rw [Nat.mod_eq_of_lt hlt, Nat.mod_eq_of_lt hmd]
  have hppos : (0:Nat) < 2 ^ p := Nat.pos_pow_of_pos p (by norm_num)
  have hp1pos : (0:Nat) < 2 ^ (p + 1) := Nat.pos_pow_of_pos (p + 1) (by norm_num)
  have hmlt : md % 2 ^ p < 2 ^ (p + 1) :=
    lt_of_lt_of_le (Nat.mod_lt _ hppos) (Nat.pow_le_pow_right (by norm_num) (by omega))
  have hsplit1 : popcountA 64 (update_md md p) =
      popcountA (p + 1) (update_md md p % 2 ^ (p + 1)) +
      popcountA (63 - p) (update_md md p / 2 ^ (p + 1)) := by
    have h1 := popcountA_split (p + 1) (63 - p) (update_md md p)
    rwa [show p + 1 + (63 - p) = 64 from by omega] at h1
  have hmod : update_md md p % 2 ^ (p + 1) = md % 2 ^ p := by
    rw [hq, Nat.add_mul_mod_self_left]
    exact Nat.mod_eq_of_lt hmlt
  have hdiv : update_md md p / 2 ^ (p + 1) = md / 2 ^ p % 2 ^ (63 - p) := by
    rw [hq, Nat.add_mul_div_left _ _ hp1pos, Nat.div_eq_of_lt hmlt, Nat.zero_add]
  have hsplit2 : popcountA 64 md =
      popcountA p (md % 2 ^ p) + popcountA (64 - p) (md / 2 ^ p) := by
    have h1 := popcountA_split p (64 - p) md
    rwa [show p + (64 - p) = 64 from by omega] at h1
  have hsplit3 : popcountA (64 - p) (md / 2 ^ p) =
      popcountA (63 - p) (md / 2 ^ p % 2 ^ (63 - p)) +
      popcountA 1 (md / 2 ^ p / 2 ^ (63 - p)) := by
    have h1 := popcountA_split (63 - p) 1 (md / 2 ^ p)
    rwa [show 63 - p + 1 = 64 - p from by omega] at h1
  have hdd : md / 2 ^ p / 2 ^ (63 - p) = md / 2 ^ 63 := by
    rw [Nat.div_div_eq_div_mul, ← pow_add, show p + (63 - p) = 63 from by omega]
  have htop : popcountA 1 (md / 2 ^ 63) = md / 2 ^ 63 := by
    have h1 : md / 2 ^ 63 < 2 := by
      apply Nat.div_lt_of_lt_mul
      calc md < 2 ^ 64 := hmd
        _ = 2 ^ 63 * 2 := by rw [pow_succ]
    have h2 : popcountA 1 (md / 2 ^ 63) =
        md / 2 ^ 63 % 2 + popcountA 0 (md / 2 ^ 63 / 2) := rfl
    have h3 : popcountA 0 (md / 2 ^ 63 / 2) = 0 := rfl
    rw [h2, h3]
    omega
  rw [hsplit1, hmod, hdiv, hsplit2, hsplit3, hdd, htop]
  rw [popcountA_fuel (p + 1) p (md % 2 ^ p) (Nat.mod_lt _ hppos) (by omega)]
  omega

/-- Claim C9 (amended): neither metadata mutation preserves bit 63 in
general — `remove_md` unconditionally forces the top bit to 1 (its final
`| (1 << 63)`), and `update_md` at position `p ≤ 62` shifts the word up
past `p`, so the new bit 63 is the old bit 62. -/
theorem md_ops_top_bit (md p : Nat) (hmd : md < 2 ^ 64) (hp : p ≤ 62) :
    remove_md md p / 2 ^ 63 = 1 ∧ update_md md p / 2 ^ 63 = md / 2 ^ 62 % 2 := by
  constructor
  · unfold remove_md pext
    have h1 : pextA 64 (md % 2 ^ 64) (low_order_pdep_table (p % 256) % 2 ^ 64) <
        2 ^ 64 := pextA_lt 64 _ _
    have h2 : pextA 64 (md % 2 ^ 64) (low_order_pdep_table (p % 256) % 2 ^ 64) |||
        2 ^ 63 < 2 ^ 64 := Nat.or_lt_two_pow h1 (by norm_num)
    have h3 : (pextA 64 (md % 2 ^ 64) (low_order_pdep_table (p % 256) % 2 ^ 64) |||
        2 ^ 63).testBit 63 = true := by
      rw [Nat.testBit_or, Nat.testBit_two_pow_self, Bool.or_true]
    rw [Nat.testBit_to_div_mod] at h3
    have h4 := of_decide_eq_true h3
    omega
  · rw [update_md_eq md p hp]
    have hppos : (0:Nat) < 2 ^ p := Nat.pos_pow_of_pos p (by norm_num)
    have hp1pos : (0:Nat) < 2 ^ (p + 1) := Nat.pos_pow_of_pos (p + 1) (by norm_num)
    have h62pos : (0:Nat) < 2 ^ (62 - p) := Nat.pos_pow_of_pos (62 - p) (by norm_num)
    have hmlt : md % 2 ^ p < 2 ^ (p + 1) :=
      lt_of_lt_of_le (Nat.mod_lt _ hppos) (Nat.pow_le_pow_right (by norm_num) (by omega))
    have h1 : (md % 2 ^ p + 2 ^ (p + 1) * (md / 2 ^ p % 2 ^ (63 - p))) / 2 ^ 63 =
        md / 2 ^ p % 2 ^ (63 - p) / 2 ^ (62 - p) := by
      rw [show (2:Nat) ^ 63 = 2 ^ (p + 1) * 2 ^ (62 - p) from by
        rw [← pow_add]; congr 1; omega]
      rw [← Nat.div_div_eq_div_mul]
      rw [Nat.add_mul_div_left _ _ hp1pos, Nat.div_eq_of_lt hmlt, Nat.zero_add]
    rw [h1]
    rw [show (2:Nat) ^ (63 - p) = 2 ^ (62 - p) * 2 from by rw [← pow_succ]; congr 1; omega]
    rw [Nat.mod_mul]
    rw [Nat.add_mul_div_left _ _ h62pos, Nat.div_eq_of_lt (Nat.mod_lt _ h62pos),
      Nat.zero_add]
    rw [Nat.div_div_eq_div_mul, ← pow_add, show p + (62 - p) = 62 from by omega]

/-! ## Claim theorems -/

set_option maxRecDepth 100000 in
/-- Claim C1 (refuted, code bug): a sequence of 29 inserts on `vqf_init 64`,
every one returning `true` and none removed, after which `vqf_is_present`
answers `false` for the inserted hash 7215.  The 29th insert lands in the
same block as its full primary bucket, bypasses the capacity check (which
only runs when the two candidate buckets lie in different blocks) and
shifts 7215's tag cell out of the block. -/
theorem inserted_key_lost_without_remove :
    (insertAll (vqf_init 64) traceA2).2 = true ∧
    7215 ∈ traceA2 ∧
    vqf_is_present (insertAll (vqf_init 64) traceA2).1 7215 = false := by decide

set_option maxRecDepth 100000 in
/-- Witness for C2: inserting hash 300 with payload 5 into a fresh
`vqf_init 64` succeeds and `vqf_query` returns the payload. -/
theorem insert_val_roundtrip_witness :
    (vqf_insert_val (vqf_init 64) 300 5).2 = true ∧
    vqf_query (vqf_insert_val (vqf_init 64) 300 5).1 300 = some 5 :=
  insert_val_roundtrip (vqf_init 64) 300 5 1 (by decide) (by decide) (by decide)
    (by decide) (by decide)
    (by
      intro j hnot hir
      exact absurd
        ⟨by decide, by rw [inRun_singleton _ _ _ (by decide) hir]; decide⟩ hnot)
    (by
      intro j hnot hir
      exact absurd hir (inRun_false_of_empty _ _ _ (by decide)))

set_option maxRecDepth 100000 in
/-- Witness for C3: the characterisation applied to hash 300 on a fresh
`vqf_init 64` (both buckets empty, so the result is `(acc, false)`). -/
theorem vqf_query_iter_characterization_witness :
    vqf_query_iter (vqf_init 64) 300 [] =
      if bucketMatchVals (vqf_init 64) (primaryIndex (vqf_init 64) 300)
          (300 % 256) ≠ [] then
        ([] ++ bucketMatchVals (vqf_init 64) (primaryIndex (vqf_init 64) 300)
          (300 % 256), true)
      else if bucketMatchVals (vqf_init 64) (altIndex (vqf_init 64) 300)
          (300 % 256) ≠ [] then
        ([] ++ bucketMatchVals (vqf_init 64) (altIndex (vqf_init 64) 300)
          (300 % 256), true)
      else ([], false) :=
  vqf_query_iter_characterization (vqf_init 64) 300 [] (by decide) (by decide)

set_option maxRecDepth 100000 in
/-- Counterexample to C3 as stated: on `filterB`, hash 1 has payload 7 in
its primary bucket and payload 9 in its alternate bucket, yet
`vqf_query_iter` returns only `([7], true)` — the alternate bucket's match
is never pushed because the primary scan already succeeded. -/
theorem query_iter_misses_alt_bucket_match :
    vqf_query_iter filterB 1 [] = ([7], true) ∧
    bucketMatchVals filterB (altIndex filterB 1) (1 % 256) = [9] := by decide

set_option maxRecDepth 100000 in
/-- Claim C4 (refuted, code bug): on `filterC`, hash 3272's tag matches at
slot 4, but `vqf_remove 3272` shifts the tag array at slot 0 (the scalar
`remove_tags_512` subtracts 4 from the slot index) and clears a metadata
bit 8 positions too low: the call returns `true`, 3272's stored cell 1480
is still in the tag array, and the unrelated key 100 — present before —
is no longer present. -/
theorem remove_deletes_wrong_slot :
    vqf_is_present filterC 3272 = true ∧
    vqf_is_present filterC 100 = true ∧
    (vqf_remove filterC 3272).2 = true ∧
    (blockAt (vqf_remove filterC 3272).1 0).tags.getD 3 0 = 200 + 5 * 2 ^ 8 ∧
    vqf_is_present (vqf_remove filterC 3272).1 100 = false := by decide

/-- Claim C5 (amended): `vqf_insert_val` never touches `nelts` — the
scalar, non-threaded build has no `nelts` update, so the counter stays at
its initial value instead of counting successful inserts. -/
theorem insert_val_preserves_nelts (f : VqfFilter) (h v : Nat) :
    (vqf_insert_val f h v).1.metadata.nelts = f.metadata.nelts := by
  simp only [vqf_insert_val]
  split
  · rfl
  · rfl

set_option maxRecDepth 100000 in
/-- Counterexample to C5 as stated: an insert that returns `true` leaves
`nelts` at 0 instead of incrementing it to 1. -/
theorem successful_insert_leaves_nelts_zero :
    (vqf_insert (vqf_init 64) 300).2 = true ∧
    (vqf_init 64).metadata.nelts = 0 ∧
    (vqf_insert (vqf_init 64) 300).1.metadata.nelts = 0 := by decide

set_option maxRecDepth 100000 in
/-- Claim C6 (refuted, code bug): after the 28 fillers of `traceA2`,
block 0 is full by the code's own test (`block_free == 36`), and hash 38's
primary and alternate buckets both lie in block 0 — yet `vqf_insert`
returns `true` and changes the metadata word (its popcount drops to 35):
the capacity check is skipped whenever the two candidate buckets share a
block, so the insert corrupts the full block instead of reporting
failure. -/
theorem full_block_insert_corrupts :
    get_block_free_space (blockAt filterA28 0).md = 36 ∧
    primaryIndex filterA28 38 / 36 = 0 ∧
    altIndex filterA28 38 / 36 = 0 ∧
    (vqf_insert filterA28 38).2 = true ∧
    word_rank (blockAt (vqf_insert filterA28 38).1 0).md = 35 := by decide

/-- Witness for C7: the popcount law at the initial metadata word and
position 0. -/
theorem update_md_word_rank_witness :
    word_rank (update_md (2 ^ 63 - 1) 0) + (2 ^ 63 - 1) / 2 ^ 63 =
      word_rank (2 ^ 63 - 1) :=
  update_md_word_rank (2 ^ 63 - 1) 0 (by norm_num) (by norm_num)

/-- Counterexample to C7 as stated: the reachable initial state already
violates `popcount(md & low63) == 36` — a fresh block's metadata word has
all 63 low bits set. -/
theorem init_md_popcount_not_36 :
    word_rank ((blockAt (vqf_init 64) 0).md &&& (2 ^ 63 - 1)) = 63 := by decide

/-- Claim C8 (amended): `vqf_init` computes `nblocks` by *floor* division
`(nslots + 28) / 28` (not the ceiling the spec states); the remaining
fields follow the spec: `nslots = nblocks * 28`,
`range = nblocks * 36 * 2^8`, `nelts = 0`, and every block's metadata word
is `2^63 - 1`. -/
theorem vqf_init_characterization (n : Nat) :
    (vqf_init n).metadata.nblocks = (n + 28) / 28 ∧
    (vqf_init n).metadata.nslots = (n + 28) / 28 * 28 ∧
    (vqf_init n).metadata.range = (n + 28) / 28 * 36 * 2 ^ 8 ∧
    (vqf_init n).metadata.key_remainder_bits = 8 ∧
    (vqf_init n).metadata.nelts = 0 ∧
    (vqf_init n).blocks =
      List.replicate ((n + 28) / 28) ⟨2 ^ 63 - 1, List.replicate 28 0⟩ :=
  ⟨rfl, rfl, rfl, rfl, rfl, rfl⟩

/-- Counterexample to C8 as stated: at `nslots = 1024` the code allocates
37 blocks while `ceil((1024 + 28) / 28) = 38`. -/
theorem init_nblocks_floor_not_ceil :
    (vqf_init 1024).metadata.nblocks = 37 ∧ (1024 + 28 + 27) / 28 = 38 := by
  decide

/-- Witness for C9: the top-bit behaviour at `md = 5`, position 2. -/
theorem md_ops_top_bit_witness :
    remove_md 5 2 / 2 ^ 63 = 1 ∧ update_md 5 2 / 2 ^ 63 = 5 / 2 ^ 62 % 2 :=
  md_ops_top_bit 5 2 (by norm_num) (by norm_num)

set_option maxRecDepth 100000 in
/-- Counterexample to C9 as stated: `remove_md` turns a clear top bit on
(`md = 0`), and `update_md` turns a set top bit off (`md = 2^63`, whose
bit 62 is clear). -/
theorem md_ops_flip_top_bit :
    (remove_md 0 0).testBit 63 = true ∧ (0 : Nat).testBit 63 = false ∧
    (update_md (2 ^ 63) 0).testBit 63 = false ∧
    ((2 : Nat) ^ 63).testBit 63 = true := by decide

set_option maxRecDepth 100000 in
/-- Claim C10: `vqf_insert` is definitionally `vqf_insert_val` with payload
0 — identical state change and return value — and a query matching an
entry made by plain `vqf_insert` therefore reports value 0. -/
theorem vqf_insert_refines_insert_val_zero :
    (∀ f h, vqf_insert f h = vqf_insert_val f h 0) ∧
    vqf_query (vqf_insert (vqf_init 64) 300).1 300 = some 0 :=
  ⟨fun _ _ => rfl, by decide⟩

end VQF
